import Mathlib

/-!
Shallow embedding of the Nibble meal-planning core, for checking the
natural-language specification against the code.

Modules embedded (numbers modelled as exact rationals `ℚ`):
* `lib/mathEngine.ts` — units, `convert`, `scaleRecipe`, `toPriceKey`, `totalCost`.
* `lib/livePricing.ts` — `normalize` (name normalization) and the `PriceBook` shape.
* `lib/scorePlan.ts`  — `tokenize`, `hasForbiddenTerms`, `norm01`, `scoreDayCandidate`,
  `pickWeek` (the 7-day greedy selector with its fallback).
* `lib/mealPlanner.ts` — slot tags, the phase ladder, `pickBest`, `planWeek`.

JavaScript `number` is modelled as `ℚ`: every value is finite, so
`Number.isFinite` filters are the identity and `NaN` does not arise.
`toFixed(n)` (which for the positive values arising here rounds half away
from zero on the decimal expansion) is modelled as round-half-up at `n`
decimal places.
-/

namespace Nibble

/-- The eight canonical units of `lib/mathEngine.ts` (`type Unit`). -/
inductive MUnit where
  | g | kg | ml | l | tbsp | tsp | cup | piece
  deriving DecidableEq, Repr

/-- The three dimensions: mass, volume, count. -/
inductive Dim where
  | mass | vol | cnt
  deriving DecidableEq, Repr

open MUnit

/-- `MASS_UNITS.has u` from the source. -/
def isMass : MUnit → Bool
  | .g | .kg => true
  | _ => false

/-- `VOL_UNITS.has u` from the source. -/
def isVol : MUnit → Bool
  | .ml | .l | .tbsp | .tsp | .cup => true
  | _ => false

/-- `COUNT_UNITS.has u` from the source (`piece` embeds the source's `"unit"`). -/
def isCnt : MUnit → Bool
  | .piece => true
  | _ => false

/-- The dimension a unit belongs to (each unit is in exactly one of the three sets). -/
def dimOf : MUnit → Dim
  | .g | .kg => .mass
  | .ml | .l | .tbsp | .tsp | .cup => .vol
  | .piece => .cnt

def TBSP_TO_ML : ℚ := 15
def TSP_TO_ML : ℚ := 5
def CUP_TO_ML : ℚ := 240

/-- Errors raised by the math engine. -/
inductive MathErr where
  | incompatibleUnits
  | invalidRatio
  deriving DecidableEq, Repr

/-- `convert(value, from, to)` from `lib/mathEngine.ts` lines 47–76:
same-unit short-circuit, per-dimension normalize-to-base-then-scale,
`throw` (modelled as `Except.error`) across dimensions. -/
def convert (value : ℚ) (a b : MUnit) : Except MathErr ℚ :=
  if a = b then .ok value
  else if isMass a ∧ isMass b then
    let gVal : ℚ := if a = kg then value * 1000 else value
    .ok (if b = kg then gVal / 1000 else gVal)
  else if isVol a ∧ isVol b then
    let mlVal : ℚ :=
      match a with
      | .l => value * 1000
      | .ml => value
      | .tbsp => value * TBSP_TO_ML
      | .tsp => value * TSP_TO_ML
      | .cup => value * CUP_TO_ML
      | _ => 0
    match b with
    | .l => .ok (mlVal / 1000)
    | .ml => .ok mlVal
    | .tbsp => .ok (mlVal / TBSP_TO_ML)
    | .tsp => .ok (mlVal / TSP_TO_ML)
    | .cup => .ok (mlVal / CUP_TO_ML)
    | _ => .error .incompatibleUnits
  else if isCnt a ∧ isCnt b then .ok value
  else .error .incompatibleUnits

/-- Modelled from the spec: the factor taking one unit to its dimension's base
unit (gram, milliliter, count), to state the "normalize to base then scale"
shape of `convert` as a refinement. -/
def specBaseFactor : MUnit → ℚ
  | .g => 1
  | .kg => 1000
  | .ml => 1
  | .l => 1000
  | .tbsp => 15
  | .tsp => 5
  | .cup => 240
  | .piece => 1

/-! String helpers. The core `String.split`, `String.toLower`, `String.map`,
`String.trim` and `String.startsWith` are defined by well-founded recursion
on byte positions and therefore do not reduce inside kernel evaluations, so
the embedding uses structurally recursive equivalents over the character
list of a string. -/

/-- Lower-case every character (the model of `toLowerCase()`). -/
def lowerStr (s : String) : String :=
  String.mk (s.data.map Char.toLower)

/-- Accumulator-based whitespace splitter: the words of a character list. -/
def splitWordsAux : List Char → List Char → List (List Char)
  | acc, [] => if acc.isEmpty then [] else [acc.reverse]
  | acc, c :: cs =>
    if c.isWhitespace then
      if acc.isEmpty then splitWordsAux [] cs
      else acc.reverse :: splitWordsAux [] cs
    else splitWordsAux (c :: acc) cs

/-- The non-empty whitespace-separated words of a string (the model of
splitting on `\s+` and dropping empties). -/
def wordsOf (s : String) : List String :=
  (splitWordsAux [] s.data).map String.mk

/-- Strip leading and trailing whitespace (the model of `trim()`). -/
def trimStr (s : String) : String :=
  String.mk (((s.data.dropWhile Char.isWhitespace).reverse.dropWhile
    Char.isWhitespace).reverse)

/-- `startsWith` over character lists. -/
def strStartsWith (s pre : String) : Bool :=
  pre.data.isPrefixOf s.data

/-- An ingredient `{name, qty, unit}` from `lib/mathEngine.ts`. -/
structure Ingredient where
  name : String
  qty : ℚ
  iUnit : MUnit
  deriving DecidableEq, Repr

/-- Round-half-up at `n` decimal places: the model of `(+x.toFixed(n))`. -/
def roundTo (n : ℕ) (x : ℚ) : ℚ :=
  (⌊x * (10 : ℚ) ^ n + 1 / 2⌋ : ℚ) / (10 : ℚ) ^ n

/-- `scaleRecipe(ratio, ingredients)` from `lib/mathEngine.ts` lines 80–83.
The guard `!isFinite(ratio) || ratio <= 0` collapses to `ratio ≤ 0` in the
rational model; each quantity becomes `+(qty * ratio).toFixed(4)`. -/
def scaleRecipe (factor : ℚ) (ingredients : List Ingredient) :
    Except MathErr (List Ingredient) :=
  if factor ≤ 0 then .error .invalidRatio
  else .ok (ingredients.map fun i => { i with qty := roundTo 4 (i.qty * factor) })

/-- `normalize(name)` from `lib/livePricing.ts` line 31: trim, lower-case,
collapse internal whitespace runs to single spaces. -/
def normName (name : String) : String :=
  String.intercalate " " (wordsOf (lowerStr name))

/-- The descriptor words stripped by `toPriceKey`'s regex. -/
def descriptorWords : List String :=
  ["fresh", "chopped", "diced", "minced", "boneless", "skinless", "large", "small", "organic"]

/-- `toPriceKey(name)` from `lib/mathEngine.ts` lines 87–95: drop the
descriptor words (case-insensitively, as whole words), collapse whitespace,
trim, then `normalize`. Names are treated as whitespace-separated word lists. -/
def toPriceKey (name : String) : String :=
  normName (String.intercalate " "
    ((wordsOf name).filter fun w => ¬ descriptorWords.contains (lowerStr w)))

/-- A `PricePer` entry `{unit, amount}` from `lib/livePricing.ts`. -/
structure PricePer where
  pUnit : MUnit
  amount : ℚ
  deriving DecidableEq, Repr

/-- The `PriceBook` record, modelled as an association list keyed by
normalized names. -/
def PriceBook := List (String × PricePer)

/-- Lookup in the price book (`priceBook[key]`). -/
def PriceBook.find (pb : PriceBook) (key : String) : Option PricePer :=
  (List.lookup key pb)

/-- The body of `totalCost`'s loop for a single ingredient: `0` when the name
is absent from the book or `convert` throws, `convertedQty * price.amount`
otherwise. -/
def costOfIngredient (pb : PriceBook) (i : Ingredient) : ℚ :=
  match pb.find (toPriceKey i.name) with
  | none => 0
  | some price =>
    match convert i.qty i.iUnit price.pUnit with
    | .ok q => q * price.amount
    | .error _ => 0

/-- The unrounded accumulator of `totalCost` (`total` just before `toFixed(2)`). -/
def rawTotal (ingredients : List Ingredient) (pb : PriceBook) : ℚ :=
  ingredients.foldl (fun total i => total + costOfIngredient pb i) 0

/-- `totalCost(ingredients, priceBook)` from `lib/mathEngine.ts` lines 97–110:
sum the priced, dimension-compatible contributions, then round once. -/
def totalCost (ingredients : List Ingredient) (pb : PriceBook) : ℚ :=
  roundTo 2 (rawTotal ingredients pb)

/-- Whether an ingredient actually contributes to `totalCost`: its key is in
the book and its unit is dimension-compatible with the price entry's unit. -/
def contributes (pb : PriceBook) (i : Ingredient) : Bool :=
  match pb.find (toPriceKey i.name) with
  | none => false
  | some price => dimOf i.iUnit = dimOf price.pUnit

/-- The §8 example ingredients: 500 ml milk, 300 g flour, 2 eggs. -/
def exampleIngredients : List Ingredient :=
  [⟨"milk", 500, .ml⟩, ⟨"flour", 300, .g⟩, ⟨"egg", 2, .piece⟩]

/-- The §8 example price table: milk 0.00125/ml, flour 0.002/g, egg 0.25/unit. -/
def examplePriceBook : PriceBook :=
  [("milk", ⟨.ml, 125/100000⟩), ("flour", ⟨.g, 2/1000⟩), ("egg", ⟨.piece, 25/100⟩)]

end Nibble

namespace Nibble.scorePlan

/-! Embedding of `lib/scorePlan.ts` (the 7-day greedy selector). Optional
fields (`ingredients?`, `tags?`) are modelled as lists, empty when absent,
matching the source's uniform `?? []` defaulting. -/

/-- `PlanRecipe` from `lib/scorePlan.ts`. -/
structure PlanRecipe where
  id : String
  title : String
  minutes : ℚ
  cost : ℚ
  ingredients : List String := []
  tags : List String := []
  deriving DecidableEq, Repr

/-- `TimeWindow`: `"any" | "le45" | "le30"`. -/
inductive TimeWindow where
  | any | le45 | le30
  deriving DecidableEq, Repr

/-- `PlanConstraints` from `lib/scorePlan.ts`. -/
structure PlanConstraints where
  budgetCapUSD : Option ℚ := none
  dayWindows : List (ℕ × TimeWindow) := []
  pantryItems : List String := []
  forbidTerms : List String := []
  deriving DecidableEq, Repr

/-- `ScoreWeights` from `lib/scorePlan.ts`. -/
structure ScoreWeights where
  weightCost : ℚ
  weightTime : ℚ
  reuseBonus : ℚ
  varietyPenalty : ℚ
  overBudgetPenalty : ℚ
  windowPenalty : ℚ
  deriving DecidableEq, Repr

/-- `DayPick = { recipe, score }`. -/
structure DayPick where
  recipe : PlanRecipe
  score : ℚ
  deriving DecidableEq, Repr

/-- `WeekResult` from `lib/scorePlan.ts`. -/
structure WeekResult where
  days : List DayPick
  totalsCostUSD : ℚ
  totalsMinutes : ℤ
  reuseHits : ℕ
  varietyScore : ℚ
  scoreSum : ℚ
  deriving DecidableEq, Repr

/-- Cost/time bounds computed over the pool. -/
structure Bounds where
  minCost : ℚ
  maxCost : ℚ
  minTime : ℚ
  maxTime : ℚ
  deriving DecidableEq, Repr

/-- `norm01(x, min, max)`: midpoint on a degenerate axis, clamped linear map
otherwise. -/
def norm01 (x lo hi : ℚ) : ℚ :=
  if hi ≤ lo then 1/2
  else max 0 (min 1 ((x - lo) / (hi - lo)))

/-- `tokenize(str)`: lower-case, replace every character outside `[a-z0-9\s]`
by a space, split on whitespace, drop empties. -/
def tokenize (s : String) : List String :=
  wordsOf (String.mk ((lowerStr s).data.map fun c =>
    if ('a' ≤ c ∧ c ≤ 'z') ∨ ('0' ≤ c ∧ c ≤ '9') then c
    else if c.isWhitespace then c else ' '))

/-- `hasForbiddenTerms(texts, forbid)`: exact-token membership of any
lower-cased, trimmed forbid entry in the token bag of the joined texts. -/
def hasForbiddenTerms (texts : List String) (forbid : List String) : Bool :=
  if forbid.isEmpty then false
  else
    let bag := tokenize (String.intercalate " " texts)
    forbid.any fun f => bag.contains (trimStr (lowerStr f))

/-- `windowOK(minutes, w)`. -/
def windowOK (minutes : ℚ) (w : TimeWindow) : Bool :=
  match w with
  | .le30 => minutes ≤ 30
  | .le45 => minutes ≤ 45
  | .any => true

/-- `reuseCount(ingredients, pantry)`. -/
def reuseCount (ingredients : List String) (pantry : List String) : ℕ :=
  if ingredients.isEmpty ∨ pantry.isEmpty then 0
  else
    let pset := pantry.map lowerStr
    (ingredients.filter fun ing => pset.contains (lowerStr ing)).length

/-- `varietyKey(r)`: joined non-empty tags if any, else the first three title
tokens. -/
def varietyKey (r : PlanRecipe) : String :=
  let tgs := r.tags.filter (fun t => t ≠ "")
  if ¬ tgs.isEmpty then String.intercalate "|" tgs
  else String.intercalate "|" ((tokenize r.title).take 3)

/-- The texts scanned by the hard-block check in `scoreDayCandidate`:
title, ingredients and tags. -/
def fullTexts (r : PlanRecipe) : List String :=
  [r.title] ++ r.ingredients ++ r.tags

/-- `scoreDayCandidate` from `lib/scorePlan.ts` lines 92–122: sentinel
`-1e6` on a hard block, else weighted cost/time axes plus reuse bonus minus
window penalty. -/
def scoreDayCandidate (r : PlanRecipe) (bounds : Bounds) (weights : ScoreWeights)
    (constraints : PlanConstraints) (dayIndex : ℕ) : ℚ :=
  if hasForbiddenTerms (fullTexts r) constraints.forbidTerms then -1000000
  else
    let costN := 1 - norm01 r.cost bounds.minCost bounds.maxCost
    let timeN := 1 - norm01 r.minutes bounds.minTime bounds.maxTime
    let w := ((constraints.dayWindows.lookup dayIndex).getD .any)
    let windowPen : ℚ := if windowOK r.minutes w then 0 else weights.windowPenalty
    let reuse : ℚ := reuseCount r.ingredients constraints.pantryItems
    weights.weightCost * costN + weights.weightTime * timeN +
      reuse * weights.reuseBonus - windowPen

/-- The inner fold of `pickWeek`'s day loop: skip hard-blocked scores
(`s < -1e5`), subtract the variety penalty, keep the first strict maximum. -/
def bestStep (bounds : Bounds) (weights : ScoreWeights) (constraints : PlanConstraints)
    (day : ℕ) (seen : String → ℕ) (acc : Option DayPick) (r : PlanRecipe) :
    Option DayPick :=
  let s := scoreDayCandidate r bounds weights constraints day
  if s < -100000 then acc
  else
    let s2 := s - (seen (varietyKey r) : ℚ) * weights.varietyPenalty
    match acc with
    | none => some ⟨r, s2⟩
    | some b => if b.score < s2 then some ⟨r, s2⟩ else some b

/-- The `best` value at the end of one day's scan of the pool. -/
def bestCandidate (pool : List PlanRecipe) (bounds : Bounds) (weights : ScoreWeights)
    (constraints : PlanConstraints) (day : ℕ) (seen : String → ℕ) : Option DayPick :=
  pool.foldl (bestStep bounds weights constraints day seen) none

/-- First element of minimal cost (the `[0]` of the stable by-cost sort). -/
def minByCost (l : List PlanRecipe) : Option PlanRecipe :=
  l.foldl
    (fun acc r =>
      match acc with
      | none => some r
      | some b => if r.cost < b.cost then some r else some b)
    none

/-- The fallback pick of `pickWeek` lines 157–165: the cheapest recipe whose
title and ingredients carry no forbidden term, and `pool[0]` when no such
recipe exists (the enclosing branch guarantees a non-empty pool; the
`.headD` default is unreachable there). -/
def fallbackPick (pool : List PlanRecipe) (constraints : PlanConstraints) : PlanRecipe :=
  let safe := pool.filter fun r =>
    ¬ hasForbiddenTerms ([r.title] ++ r.ingredients) constraints.forbidTerms
  match minByCost safe with
  | some s => s
  | none => pool.headD ⟨"", "", 0, 0, [], []⟩

/-- The per-day running state of `pickWeek`: chosen picks, variety counts,
pantry-reuse hits. -/
structure WState where
  chosen : List DayPick
  seen : String → ℕ
  reuseHits : ℕ

/-- One iteration of `pickWeek`'s day loop. The fallback branch (`!best`)
pushes its pick with score `-999` and — like the source's `continue` —
leaves the variety and reuse state untouched. -/
def dayStep (pool : List PlanRecipe) (bounds : Bounds) (weights : ScoreWeights)
    (constraints : PlanConstraints) (st : WState) (day : ℕ) : WState :=
  match bestCandidate pool bounds weights constraints day st.seen with
  | some best =>
    { chosen := st.chosen ++ [best]
      seen := fun k => if k = varietyKey best.recipe then st.seen k + 1 else st.seen k
      reuseHits := st.reuseHits + reuseCount best.recipe.ingredients constraints.pantryItems }
  | none =>
    { st with chosen := st.chosen ++ [⟨fallbackPick pool constraints, -999⟩] }

/-- `pickWeek(pool, weights, constraints)` from `lib/scorePlan.ts` lines
125–197. -/
def pickWeek (pool : List PlanRecipe) (weights : ScoreWeights)
    (constraints : PlanConstraints) : WeekResult :=
  match pool with
  | [] => ⟨[], 0, 0, 0, 0, 0⟩
  | p :: ps =>
    let bounds : Bounds :=
      ⟨(ps.map (·.cost)).foldl min p.cost,
       (ps.map (·.cost)).foldl max p.cost,
       (ps.map (·.minutes)).foldl min p.minutes,
       (ps.map (·.minutes)).foldl max p.minutes⟩
    let final := (List.range 7).foldl
      (dayStep (p :: ps) bounds weights constraints) ⟨[], fun _ => 0, 0⟩
    let chosen := final.chosen
    let costUSD := roundTo 2 (chosen.foldl (fun t d => t + d.recipe.cost) 0)
    let minutes : ℤ := ⌊(chosen.foldl (fun t d => t + d.recipe.minutes) 0) + 1/2⌋
    let baseSum := chosen.foldl (fun t d => t + d.score) 0
    match constraints.budgetCapUSD with
    | some cap =>
      if cap ≠ 0 ∧ cap < costUSD then
        let penalty := (costUSD - cap) * weights.overBudgetPenalty
        ⟨chosen, costUSD, minutes, final.reuseHits, -penalty, baseSum - penalty⟩
      else ⟨chosen, costUSD, minutes, final.reuseHits, 0, baseSum⟩
    | none => ⟨chosen, costUSD, minutes, final.reuseHits, 0, baseSum⟩

/-- A pool of one recipe whose title carries a forbidden token. -/
def cex1Recipe : PlanRecipe :=
  { id := "r1", title := "peanut stew", minutes := 10, cost := 5 }

/-- Weights for the all-blocked counterexample (all zero). -/
def cex1Weights : ScoreWeights := ⟨0, 0, 0, 0, 0, 0⟩

/-- Constraints forbidding "peanut". -/
def cex1Constraints : PlanConstraints := { forbidTerms := ["peanut"] }

end Nibble.scorePlan

namespace Nibble.mealPlanner

/-! Embedding of `lib/mealPlanner.ts` (the slot-aware weekly planner). -/

/-- `MealSlot`. -/
inductive MealSlot where
  | breakfast | lunch | dinner | snack | dessert
  deriving DecidableEq, Repr

/-- The tag string of a slot (`slot:<name>`). -/
def slotName : MealSlot → String
  | .breakfast => "breakfast"
  | .lunch => "lunch"
  | .dinner => "dinner"
  | .snack => "snack"
  | .dessert => "dessert"

/-- `Candidate` from `lib/mealPlanner.ts` (optional lists default to empty,
optional coverage/confidence to `none`, matching the `??` defaulting at use
sites). -/
structure Candidate where
  id : String
  title : String
  minutes : ℚ
  costUSD : ℚ
  ingredients : List String := []
  steps : List String := []
  tags : List String := []
  coverage : Option ℚ := none
  priceConfidence : Option ℚ := none
  deriving DecidableEq, Repr

/-- `PlanRecipe`, the trimmed projection of a chosen `Candidate`. -/
structure PlanRecipe where
  id : String
  title : String
  minutes : ℚ
  costUSD : ℚ
  ingredients : List String
  steps : List String
  deriving DecidableEq, Repr

/-- `DaySlot = { dayIndex, slot, recipe }`. -/
structure DaySlot where
  dayIndex : ℕ
  slot : MealSlot
  recipe : PlanRecipe
  deriving DecidableEq, Repr

/-- The `summary` of a `Plan`. -/
structure Summary where
  days : ℕ
  slotsPerDay : ℕ
  totalCostUSD : ℚ
  avgMinutes : ℚ
  avgCoverage : ℚ
  avgPriceConfidence : ℚ
  costIsEstimate : Bool
  deriving DecidableEq, Repr

/-- `Plan = { slots, summary }`. -/
structure Plan where
  slots : List DaySlot
  summary : Summary
  deriving DecidableEq, Repr

/-- `hasAnySlotTag(c)`. -/
def hasAnySlotTag (c : Candidate) : Bool :=
  c.tags.any fun t => strStartsWith t "slot:"

/-- `hasSlotTag(c, slot)`: untagged candidates default to lunch/dinner. -/
def hasSlotTag (c : Candidate) (slot : MealSlot) : Bool :=
  if ¬ hasAnySlotTag c then slot = .lunch ∨ slot = .dinner
  else c.tags.contains ("slot:" ++ slotName slot)

/-- `isSlotCompatibleWithFallback(c, slot, phase)`: phase 0 exact, phase 1
the fixed neighbor sets. -/
def isSlotCompatibleWithFallback (c : Candidate) (slot : MealSlot) (phase : ℕ) : Bool :=
  if phase = 0 then hasSlotTag c slot
  else
    let is := fun s => hasSlotTag c s
    let untagged := ¬ hasAnySlotTag c
    match slot with
    | .breakfast => is .breakfast ∨ is .snack
    | .lunch => is .lunch ∨ is .dinner ∨ untagged
    | .dinner => is .dinner ∨ is .lunch ∨ untagged
    | .snack => is .snack ∨ is .breakfast ∨ is .lunch
    | .dessert => is .dessert ∨ is .snack

/-- The `family` component of `getKeySet(c)`. -/
def familyKey (c : Candidate) : String :=
  let protein := (c.tags.find? fun t => strStartsWith t "prot:").getD "prot:none"
  let cuisine := (c.tags.find? fun t => strStartsWith t "cuisine:").getD "cuisine:gen"
  protein ++ "|" ++ cuisine

/-- `diversityPenalty(c, usedFamilies, diversityWeight)`. -/
def diversityPenalty (c : Candidate) (usedFamilies : String → ℕ)
    (diversityWeight : ℚ) : ℚ :=
  diversityWeight * (usedFamilies (familyKey c) : ℚ) * (35/100)

/-- The min/max pair from `range(arr)`. In the rational model every value is
finite, so the `Number.isFinite` filter is the identity; an empty list gives
`(0, 1)` and a degenerate list widens the max to `min + 1`. -/
structure RangeR where
  rmin : ℚ
  rmax : ℚ
  deriving DecidableEq, Repr

/-- `range(arr)` from `lib/mealPlanner.ts` lines 110–116. -/
def range (arr : List ℚ) : RangeR :=
  match arr with
  | [] => ⟨0, 1⟩
  | x :: xs =>
    let lo := xs.foldl min x
    let hi := xs.foldl max x
    if lo = hi then ⟨lo, lo + 1⟩ else ⟨lo, hi⟩

/-- `norm(v, min, max)` — the unclamped linear map. -/
def norm (v lo hi : ℚ) : ℚ := (v - lo) / (hi - lo)

/-- `avg(arr)`. -/
def avg (arr : List ℚ) : ℚ :=
  if arr.isEmpty then 0 else arr.sum / (arr.length : ℚ)

/-- `clamp01(n)`. -/
def clamp01 (n : ℚ) : ℚ := max 0 (min 1 n)

/-- The object form of `PlanOptions` (optional fields model the `?` marks). -/
structure PlanOptionsRec where
  mealsPerDay : ℚ
  weightCost : ℚ
  weightTime : ℚ
  diversityWeight : Option ℚ := none
  budgetCapUSD : Option ℚ := none
  days : Option ℚ := none
  maxRepeatsPerWeek : Option ℚ := none
  noAdjacentSameTitle : Option Bool := none
  deriving DecidableEq, Repr

/-- `PlanOptions = number | {...}`. -/
inductive PlanOptions where
  | ofNumber (w : ℚ)
  | ofRecord (o : PlanOptionsRec)
  deriving DecidableEq, Repr

/-- The normalized options produced by `normalizeOpts`. -/
structure NOpts where
  mealsPerDay : ℕ
  weightCost : ℚ
  weightTime : ℚ
  diversityWeight : ℚ
  budgetCapUSD : Option ℚ
  days : ℕ
  maxRepeatsPerWeek : ℕ
  noAdjacentSameTitle : Bool
  deriving DecidableEq, Repr

/-- `normalizeOpts(opts)` from `lib/mealPlanner.ts` lines 144–168. -/
def normalizeOpts : PlanOptions → NOpts
  | .ofNumber w =>
    ⟨2, clamp01 w, 1 - clamp01 w, 35/100, none, 7, 3, true⟩
  | .ofRecord o =>
    ⟨(max 1 (min 4 ⌊o.mealsPerDay⌋)).toNat,
     clamp01 o.weightCost,
     clamp01 o.weightTime,
     clamp01 (o.diversityWeight.getD (35/100)),
     o.budgetCapUSD,
     (max 1 (min 14 ⌊o.days.getD 7⌋)).toNat,
     (max 1 (min 7 ⌊o.maxRepeatsPerWeek.getD 3⌋)).toNat,
     o.noAdjacentSameTitle.getD true⟩

/-- `slotsForMealsPerDay(mealsPerDay)`. -/
def slotsForMealsPerDay (mealsPerDay : ℕ) : List MealSlot :=
  if mealsPerDay ≤ 1 then [.dinner]
  else if mealsPerDay = 2 then [.lunch, .dinner]
  else if mealsPerDay = 3 then [.breakfast, .lunch, .dinner]
  else [.breakfast, .lunch, .dinner, .snack]

/-- `titleKey(s)`. -/
def titleKey (s : String) : String := lowerStr (trimStr s)

/-- `appearsOnDay(chosen, dayIndex, title)`; `dayIndex` is an integer so that
the `dayIndex - 1` call at day 0 probes day `-1` (matching no slot), as in
the source. -/
def appearsOnDay (chosen : List DaySlot) (dayIndex : ℤ) (title : String) : Bool :=
  chosen.any fun s => (s.dayIndex : ℤ) = dayIndex ∧ titleKey s.recipe.title = titleKey title

/-- The projection `pr` built in `applyPick`. -/
def toPlanRecipe (c : Candidate) : PlanRecipe :=
  ⟨c.id, c.title, c.minutes, c.costUSD, c.ingredients, c.steps⟩

/-- The mutable state threaded through one planning run: `chosen`,
`usedTitles`, `usedFamilies`, `runningCost`. -/
structure PState where
  chosen : List DaySlot
  usedTitles : String → ℕ
  usedFamilies : String → ℕ
  runningCost : ℚ

/-- The initial state of a planning run. -/
def initState : PState := ⟨[], fun _ => 0, fun _ => 0, 0⟩

/-- `usedCount(c)`. -/
def usedCount (st : PState) (c : Candidate) : ℕ :=
  st.usedTitles (titleKey c.title)

/-- The five relaxation-phase predicates A–E of `pickForSlot`, indexed 0–4. -/
def phasePass (o : NOpts) (st : PState) (dayIndex : ℤ) (slot : MealSlot) :
    ℕ → Candidate → Bool
  | 0, c => usedCount st c = 0 ∧ isSlotCompatibleWithFallback c slot 0
  | 1, c => usedCount st c < o.maxRepeatsPerWeek ∧
      isSlotCompatibleWithFallback c slot 0 ∧
      (¬ o.noAdjacentSameTitle ∨ ¬ appearsOnDay st.chosen (dayIndex - 1) c.title)
  | 2, c => usedCount st c < o.maxRepeatsPerWeek ∧
      isSlotCompatibleWithFallback c slot 0
  | 3, c => usedCount st c < o.maxRepeatsPerWeek ∧
      isSlotCompatibleWithFallback c slot 1 ∧
      (¬ o.noAdjacentSameTitle ∨ ¬ appearsOnDay st.chosen (dayIndex - 1) c.title)
  | 4, c => usedCount st c < o.maxRepeatsPerWeek ∧
      isSlotCompatibleWithFallback c slot 1
  | _ + 5, _ => false

/-- The score computed for one candidate inside `pickBest` (lines 309–318):
weighted normalized axes, diversity penalty, and — once the running cost
already exceeds a non-null budget cap — an extra `costN × 1.25`. -/
def pickBestScore (c : Candidate) (currentCost : ℚ) (costRange timeRange : RangeR)
    (diversityWeight weightCost weightTime : ℚ) (budgetCapUSD : Option ℚ)
    (usedFamilies : String → ℕ) : ℚ :=
  let costN := norm c.costUSD costRange.rmin costRange.rmax
  let timeN := norm c.minutes timeRange.rmin timeRange.rmax
  let base := weightCost * costN + weightTime * timeN +
    diversityPenalty c usedFamilies diversityWeight
  match budgetCapUSD with
  | some cap => if cap < currentCost then base + costN * (5/4) else base
  | none => base

/-- The body of `pickBest`'s loop: keep the first strict minimum. -/
def pickBestStep (currentCost : ℚ) (costRange timeRange : RangeR)
    (diversityWeight weightCost weightTime : ℚ) (budgetCapUSD : Option ℚ)
    (usedFamilies : String → ℕ) (acc : Option (Candidate × ℚ)) (c : Candidate) :
    Option (Candidate × ℚ) :=
  let s := pickBestScore c currentCost costRange timeRange diversityWeight
    weightCost weightTime budgetCapUSD usedFamilies
  match acc with
  | none => some (c, s)
  | some b => if s < b.2 then some (c, s) else some b

/-- `pickBest(list, ...)` from `lib/mealPlanner.ts` lines 295–326: first
strict minimum of `pickBestScore` over the list. -/
def pickBest (list : List Candidate) (currentCost : ℚ) (costRange timeRange : RangeR)
    (diversityWeight weightCost weightTime : ℚ) (budgetCapUSD : Option ℚ)
    (usedFamilies : String → ℕ) : Option Candidate :=
  (list.foldl
    (pickBestStep currentCost costRange timeRange diversityWeight weightCost
      weightTime budgetCapUSD usedFamilies)
    none).map Prod.fst

/-- The phase loop of `pickForSlot`: first phase with a non-empty filtered
pool wins (and `pickBest` of a non-empty list always returns a candidate). -/
def tryPhases (pool : List Candidate) (o : NOpts) (costRange timeRange : RangeR)
    (st : PState) (dayIndex : ℤ) (slot : MealSlot) : List ℕ → Option Candidate
  | [] => none
  | i :: rest =>
    let list := pool.filter (phasePass o st dayIndex slot i)
    if list.isEmpty then tryPhases pool o costRange timeRange st dayIndex slot rest
    else
      match pickBest list st.runningCost costRange timeRange o.diversityWeight
        o.weightCost o.weightTime o.budgetCapUSD st.usedFamilies with
      | some c => some c
      | none => tryPhases pool o costRange timeRange st dayIndex slot rest

/-- `pickForSlot(dayIndex, slot)` from `lib/mealPlanner.ts` lines 236–270. -/
def pickForSlot (pool : List Candidate) (o : NOpts) (costRange timeRange : RangeR)
    (st : PState) (dayIndex : ℤ) (slot : MealSlot) : Option Candidate :=
  tryPhases pool o costRange timeRange st dayIndex slot [0, 1, 2, 3, 4]

/-- `applyPick(best, dayIndex, slot)` from `lib/mealPlanner.ts` lines 276–292. -/
def applyPick (st : PState) (best : Candidate) (dayIndex : ℕ) (slot : MealSlot) : PState :=
  { chosen := st.chosen ++ [⟨dayIndex, slot, toPlanRecipe best⟩]
    usedTitles := fun k =>
      if k = titleKey best.title then st.usedTitles k + 1 else st.usedTitles k
    usedFamilies := fun k =>
      if k = familyKey best then st.usedFamilies k + 1 else st.usedFamilies k
    runningCost := st.runningCost + best.costUSD }

/-- One `(day, slot)` cell of the main loop: apply the pick if any, else
leave the state (and hence the cell) untouched. -/
def cellStep (pool : List Candidate) (o : NOpts) (costRange timeRange : RangeR)
    (st : PState) (cell : ℕ × MealSlot) : PState :=
  match pickForSlot pool o costRange timeRange st (cell.1 : ℤ) cell.2 with
  | some c => applyPick st c cell.1 cell.2
  | none => st

/-- The day-major list of grid cells visited by the main loop. -/
def cells (days : ℕ) (daySlots : List MealSlot) : List (ℕ × MealSlot) :=
  (List.range days).flatMap fun d => daySlots.map fun s => (d, s)

/-- `emptyPlan(days, mealsPerDay)`. -/
def emptyPlan (days mealsPerDay : ℕ) : Plan :=
  ⟨[], ⟨days, mealsPerDay, 0, 0, 0, 0, true⟩⟩

/-- `planWeek(candidates, options)` from `lib/mealPlanner.ts` lines 192–293.
The `Number.isFinite` pool filter is the identity on rationals. -/
def planWeek (candidates : List Candidate) (options : PlanOptions) : Plan :=
  let o := normalizeOpts options
  let pool := candidates
  if pool.isEmpty then emptyPlan o.days o.mealsPerDay
  else
    let costRange := range (pool.map (·.costUSD))
    let timeRange := range (pool.map (·.minutes))
    let daySlots := slotsForMealsPerDay o.mealsPerDay
    let final := (cells o.days daySlots).foldl (cellStep pool o costRange timeRange) initState
    let chosen := final.chosen
    ⟨chosen,
     ⟨o.days, daySlots.length,
      chosen.foldl (fun s x => s + x.recipe.costUSD) 0,
      avg (chosen.map (·.recipe.minutes)),
      avg (pool.map fun c => c.coverage.getD 0),
      avg (pool.map fun c => c.priceConfidence.getD 0),
      avg (pool.map fun c => c.coverage.getD 0) < 7/10⟩⟩

/-- How many slots of a plan carry a given title key. -/
def countTitle (l : List DaySlot) (k : String) : ℕ :=
  (l.filter fun s => titleKey s.recipe.title = k).length

/-- The distinct title keys of a candidate pool. -/
def dedupKeys (pool : List Candidate) : List String :=
  (pool.map fun c => titleKey c.title).dedup

/-- The total of the week's per-title use counts over the pool's keys. -/
def keySum (pool : List Candidate) (st : PState) : ℕ :=
  ((dedupKeys pool).map st.usedTitles).sum

/-- One untagged candidate (no `slot:` tag). -/
def cex2Candidate : Candidate :=
  { id := "c1", title := "Pasta", minutes := 20, costUSD := 4 }

/-- Options asking for 3 meals per day over 1 day. -/
def cex2Opts : PlanOptions :=
  .ofRecord { mealsPerDay := 3, weightCost := 1/2, weightTime := 1/2, days := some 1 }

/-- Options asking for 1 meal per day over 1 day. -/
def oneCellOpts : PlanOptions :=
  .ofRecord { mealsPerDay := 1, weightCost := 1/2, weightTime := 1/2, days := some 1 }

/-- A candidate tagged for breakfast only. -/
def breakfastOnly : Candidate :=
  { id := "b1", title := "Oats", minutes := 5, costUSD := 2, tags := ["slot:breakfast"] }

/-- A cheap slow candidate and a costly fast one, for exercising `pickBest`. -/
def cheapSlow : Candidate := { id := "1", title := "a", minutes := 10, costUSD := 1 }

/-- See `cheapSlow`. -/
def costlyFast : Candidate := { id := "2", title := "b", minutes := 5, costUSD := 2 }

end Nibble.mealPlanner

namespace Nibble

/-! ### Helper lemmas about the unit & cost engine -/

lemma convert_self (v : ℚ) (a : MUnit) : convert v a a = .ok v := by
  cases a <;> simp [convert]

lemma convert_dim_eq (v : ℚ) (a b : MUnit) (h : dimOf a = dimOf b) :
    convert v a b = .ok (v * specBaseFactor a / specBaseFactor b) := by
  cases a <;> cases b <;>
    simp_all [convert, dimOf, specBaseFactor, isMass, isVol, isCnt,
      TBSP_TO_ML, TSP_TO_ML, CUP_TO_ML]

lemma convert_error_iff (v : ℚ) (a b : MUnit) :
    convert v a b = .error .incompatibleUnits ↔ dimOf a ≠ dimOf b := by
  cases a <;> cases b <;> simp [convert, dimOf, isMass, isVol, isCnt]

lemma specBaseFactor_pos (a : MUnit) : 0 < specBaseFactor a := by
  cases a <;> norm_num [specBaseFactor]

lemma foldl_add_init {α : Type} (f : α → ℚ) (l : List α) (init : ℚ) :
    l.foldl (fun t i => t + f i) init = init + (l.map f).sum := by
  induction l generalizing init with
  | nil => simp
  | cons x xs ih => simp [ih, add_assoc]

lemma rawTotal_eq_sum (l : List Ingredient) (pb : PriceBook) :
    rawTotal l pb = (l.map (costOfIngredient pb)).sum := by
  rw [rawTotal, foldl_add_init, zero_add]

lemma costOfIngredient_eq_zero_of_not_contributes (pb : PriceBook) (i : Ingredient)
    (h : contributes pb i = false) : costOfIngredient pb i = 0 := by
  rw [costOfIngredient]
  rw [contributes] at h
  cases hf : pb.find (toPriceKey i.name) with
  | none => rfl
  | some price =>
    rw [hf] at h
    simp only [decide_eq_false_iff_not] at h
    have hc := (convert_error_iff i.qty i.iUnit price.pUnit).mpr h
    simp only [hc]

lemma sum_map_eq_sum_filter {α : Type} (p : α → Bool) (f : α → ℚ) (l : List α)
    (h : ∀ i ∈ l, p i = false → f i = 0) :
    (l.map f).sum = ((l.filter p).map f).sum := by
  induction l with
  | nil => rfl
  | cons x xs ih =>
    have hxs : ∀ i ∈ xs, p i = false → f i = 0 := fun i hi => h i (List.mem_cons_of_mem _ hi)
    cases hp : p x with
    | true => simp [List.filter_cons, hp, ih hxs]
    | false => simp [List.filter_cons, hp, ih hxs, h x (List.mem_cons_self x xs) hp]

/-! ### Claim theorems for the unit & cost engine -/

/-- C5: `convert` returns the value unchanged when the units are equal,
converts within the mass or volume dimension by normalizing to the base
unit (g or ml) and then scaling, and fails with an IncompatibleUnits error
exactly when the two units belong to different dimensions; in particular
`convert 1 g ml` and `convert 1 ml unit` both fail. -/
theorem C5_convert_dimension_discipline :
    (∀ (v : ℚ) (a : MUnit), convert v a a = .ok v) ∧
    (∀ (v : ℚ) (a b : MUnit), dimOf a = dimOf b →
        convert v a b = .ok (v * specBaseFactor a / specBaseFactor b)) ∧
    (∀ (v : ℚ) (a b : MUnit),
        convert v a b = .error .incompatibleUnits ↔ dimOf a ≠ dimOf b) ∧
    convert 1 .g .ml = .error .incompatibleUnits ∧
    convert 1 .ml .piece = .error .incompatibleUnits :=
  ⟨convert_self, convert_dim_eq, convert_error_iff, rfl, rfl⟩

/-- Witness for C5 at a concrete input: kg and g share the mass dimension
and `convert 3 kg g` follows the base-then-scale formula. -/
theorem C5_convert_dimension_discipline_witness :
    dimOf MUnit.kg = dimOf MUnit.g ∧
    convert 3 MUnit.kg MUnit.g =
      .ok (3 * specBaseFactor MUnit.kg / specBaseFactor MUnit.g) :=
  ⟨by decide, C5_convert_dimension_discipline.2.1 3 MUnit.kg MUnit.g (by decide)⟩

/-- C7: for any rational value and any two units of the same dimension, the
round trip `convert (convert x a b) b a` recovers `x` exactly, and in
particular `convert (convert 1 kg g) g kg = 1`. -/
theorem C7_convert_roundtrip :
    (∀ (x : ℚ) (a b : MUnit), dimOf a = dimOf b →
        (convert x a b).bind (fun y => convert y b a) = .ok x) ∧
    (convert 1 .kg .g).bind (fun y => convert y .g .kg) = .ok 1 := by
  constructor
  · intro x a b h
    rw [convert_dim_eq x a b h]
    show convert (x * specBaseFactor a / specBaseFactor b) b a = .ok x
    rw [convert_dim_eq _ b a h.symm]
    have ha := (specBaseFactor_pos a).ne.symm
    have hb := (specBaseFactor_pos b).ne.symm
    congr 1
    field_simp
  · rw [convert_dim_eq 1 .kg .g (by decide)]
    show convert (1 * specBaseFactor .kg / specBaseFactor .g) .g .kg = .ok 1
    rw [convert_dim_eq _ .g .kg (by decide)]
    norm_num [specBaseFactor]

/-- Witness for C7 at a concrete input: the tbsp/tsp volume round trip. -/
theorem C7_convert_roundtrip_witness :
    dimOf MUnit.tbsp = dimOf MUnit.tsp ∧
    (convert 2 MUnit.tbsp MUnit.tsp).bind (fun y => convert y MUnit.tsp MUnit.tbsp) =
      .ok 2 :=
  ⟨by decide, C7_convert_roundtrip.1 2 MUnit.tbsp MUnit.tsp (by decide)⟩

/-- C6: `totalCost` sums `convertedQty × amountPerUnit` over exactly the
ingredients whose price key is in the table and whose unit is
dimension-compatible with the price entry's unit, silently omitting the
rest, and rounds once at the end: the §8 example sums to the unrounded
1.725 and returns 1.73. -/
theorem C6_totalCost_skips_and_rounds_once :
    (∀ (l : List Ingredient) (pb : PriceBook),
        totalCost l pb =
          roundTo 2 (((l.filter (contributes pb)).map (costOfIngredient pb)).sum)) ∧
    rawTotal exampleIngredients examplePriceBook = 1725/1000 ∧
    totalCost exampleIngredients examplePriceBook = 173/100 := by
  have hraw : rawTotal exampleIngredients examplePriceBook = 1725/1000 := by
    have h1 : costOfIngredient examplePriceBook ⟨"milk", 500, .ml⟩ =
        500 * (125/100000) := rfl
    have h2 : costOfIngredient examplePriceBook ⟨"flour", 300, .g⟩ =
        300 * (2/1000) := rfl
    have h3 : costOfIngredient examplePriceBook ⟨"egg", 2, .piece⟩ =
        2 * (25/100) := rfl
    simp only [rawTotal, exampleIngredients, List.foldl, h1, h2, h3]
    norm_num
  refine ⟨?_, hraw, ?_⟩
  · intro l pb
    rw [totalCost, rawTotal_eq_sum,
      sum_map_eq_sum_filter (contributes pb) (costOfIngredient pb) l
        (fun i _ h => costOfIngredient_eq_zero_of_not_contributes pb i h)]
  · rw [totalCost, hraw, roundTo]
    norm_num

/-- C8 as stated is false on the code: `scaleRecipe` does not return exactly
`qty × ratio` — it rounds each scaled quantity to 4 decimal places
(`+(i.qty * ratio).toFixed(4)`), so scaling `0.11111` by 1 yields `0.1111`. -/
theorem C8_counterexample :
    scaleRecipe 1 [⟨"flour", 11111/100000, .g⟩] = .ok [⟨"flour", 1111/10000, .g⟩] ∧
    (1111/10000 : ℚ) ≠ (11111/100000 : ℚ) * 1 := by
  constructor
  · rw [scaleRecipe, if_neg (by norm_num)]
    simp only [List.map]
    norm_num [roundTo]
  · norm_num

/-- C8 amended: `scaleRecipe` fails with InvalidRatio iff the ratio is ≤ 0
(non-finite ratios do not exist in the rational model); otherwise it returns
a list of the same length in which each ingredient keeps its name and unit
and its qty is `qty × ratio` rounded to 4 decimal places — in particular
250 ml scaled by 2 gives 500 and 200 g scaled by 2 gives 400. -/
theorem C8_scaleRecipe_amended :
    (∀ (k : ℚ) (l : List Ingredient),
        scaleRecipe k l = .error .invalidRatio ↔ k ≤ 0) ∧
    (∀ (k : ℚ) (l : List Ingredient), 0 < k →
        ∃ out, scaleRecipe k l = .ok out ∧ out.length = l.length ∧
          ∀ j : Fin l.length, ∃ hj : j.1 < out.length,
            (out.get ⟨j.1, hj⟩).name = (l.get j).name ∧
            (out.get ⟨j.1, hj⟩).iUnit = (l.get j).iUnit ∧
            (out.get ⟨j.1, hj⟩).qty = roundTo 4 ((l.get j).qty * k)) ∧
    scaleRecipe 2 [⟨"x", 250, .ml⟩] = .ok [⟨"x", 500, .ml⟩] ∧
    scaleRecipe 2 [⟨"y", 200, .g⟩] = .ok [⟨"y", 400, .g⟩] := by
  refine ⟨?_, ?_, ?_, ?_⟩
  · intro k l
    rw [scaleRecipe]
    split <;> simp_all
  · intro k l hk
    refine ⟨l.map (fun i => { i with qty := roundTo 4 (i.qty * k) }), ?_, by simp, ?_⟩
    · rw [scaleRecipe, if_neg (not_le.mpr hk)]
    · intro j
      refine ⟨by simp [j.isLt], ?_⟩
      simp
  · rw [scaleRecipe, if_neg (by norm_num)]
    simp only [List.map]
    norm_num [roundTo]
  · rw [scaleRecipe, if_neg (by norm_num)]
    simp only [List.map]
    norm_num [roundTo]

/-- Witness for the amended C8 at ratio 3 on a one-ingredient list. -/
theorem C8_scaleRecipe_amended_witness :
    (0:ℚ) < 3 ∧
    ∃ out, scaleRecipe 3 [(⟨"z", 2, .g⟩ : Ingredient)] = .ok out ∧
      out.length = [(⟨"z", 2, .g⟩ : Ingredient)].length ∧
      ∀ j : Fin [(⟨"z", 2, .g⟩ : Ingredient)].length, ∃ hj : j.1 < out.length,
        (out.get ⟨j.1, hj⟩).name = ([(⟨"z", 2, .g⟩ : Ingredient)].get j).name ∧
        (out.get ⟨j.1, hj⟩).iUnit = ([(⟨"z", 2, .g⟩ : Ingredient)].get j).iUnit ∧
        (out.get ⟨j.1, hj⟩).qty =
          roundTo 4 (([(⟨"z", 2, .g⟩ : Ingredient)].get j).qty * 3) :=
  ⟨by norm_num, C8_scaleRecipe_amended.2.1 3 [⟨"z", 2, .g⟩] (by norm_num)⟩

end Nibble

namespace Nibble.scorePlan

/-! ### Helper lemmas about `scorePlan` -/

lemma norm01_nonneg (x lo hi : ℚ) : 0 ≤ norm01 x lo hi := by
  rw [norm01]
  split
  · norm_num
  · exact le_max_left 0 _

lemma norm01_le_one (x lo hi : ℚ) : norm01 x lo hi ≤ 1 := by
  rw [norm01]
  split
  · norm_num
  · exact max_le (by norm_num) (min_le_left 1 _)

lemma pickWeek_days_eq (p : PlanRecipe) (ps : List PlanRecipe) (w : ScoreWeights)
    (cs : PlanConstraints) :
    (pickWeek (p :: ps) w cs).days =
      ((List.range 7).foldl
        (dayStep (p :: ps)
          ⟨(ps.map (·.cost)).foldl min p.cost, (ps.map (·.cost)).foldl max p.cost,
           (ps.map (·.minutes)).foldl min p.minutes,
           (ps.map (·.minutes)).foldl max p.minutes⟩
          w cs) ⟨[], fun _ => 0, 0⟩).chosen := by
  rw [pickWeek]
  cases hb : cs.budgetCapUSD with
  | none => rfl
  | some cap =>
    simp only []
    split <;> rfl

end Nibble.scorePlan

namespace Nibble.mealPlanner

/-! ### Helper lemmas about `mealPlanner` -/

lemma foldl_min_all_eq (v : ℚ) :
    ∀ (vs : List ℚ), (∀ u ∈ vs, u = v) → vs.foldl min v = v := by
  intro vs
  induction vs with
  | nil => intro _; rfl
  | cons u us ih =>
    intro h
    have hu : u = v := h u (List.mem_cons_self u us)
    simp only [List.foldl, hu, min_self]
    exact ih fun x hx => h x (List.mem_cons_of_mem _ hx)

lemma foldl_max_all_eq (v : ℚ) :
    ∀ (vs : List ℚ), (∀ u ∈ vs, u = v) → vs.foldl max v = v := by
  intro vs
  induction vs with
  | nil => intro _; rfl
  | cons u us ih =>
    intro h
    have hu : u = v := h u (List.mem_cons_self u us)
    simp only [List.foldl, hu, max_self]
    exact ih fun x hx => h x (List.mem_cons_of_mem _ hx)

lemma range_all_eq (v : ℚ) (vs : List ℚ) (h : ∀ u ∈ vs, u = v) :
    range (v :: vs) = ⟨v, v + 1⟩ := by
  rw [range]
  simp [foldl_min_all_eq v vs h, foldl_max_all_eq v vs h]

lemma pickBestStep_none (cc : ℚ) (cr tr : RangeR) (dw wc wt : ℚ)
    (cap : Option ℚ) (fam : String → ℕ) (c : Candidate) :
    pickBestStep cc cr tr dw wc wt cap fam none c =
      some (c, pickBestScore c cc cr tr dw wc wt cap fam) := rfl

lemma pickBestStep_some (cc : ℚ) (cr tr : RangeR) (dw wc wt : ℚ)
    (cap : Option ℚ) (fam : String → ℕ) (b : Candidate × ℚ) (c : Candidate) :
    pickBestStep cc cr tr dw wc wt cap fam (some b) c =
      if pickBestScore c cc cr tr dw wc wt cap fam < b.2
      then some (c, pickBestScore c cc cr tr dw wc wt cap fam) else some b := rfl

lemma foldl_pickBestStep_isSome (cc : ℚ) (cr tr : RangeR) (dw wc wt : ℚ)
    (cap : Option ℚ) (fam : String → ℕ) :
    ∀ (l : List Candidate) (b : Candidate × ℚ),
      (l.foldl (pickBestStep cc cr tr dw wc wt cap fam) (some b)).isSome = true := by
  intro l
  induction l with
  | nil => intro b; rfl
  | cons x xs ih =>
    intro b
    rw [List.foldl_cons, pickBestStep_some]
    split
    · exact ih _
    · exact ih _

lemma pickBest_isSome (list : List Candidate) (cc : ℚ) (cr tr : RangeR)
    (dw wc wt : ℚ) (cap : Option ℚ) (fam : String → ℕ) (h : list ≠ []) :
    (pickBest list cc cr tr dw wc wt cap fam).isSome = true := by
  rw [pickBest]
  rcases list with _ | ⟨c, cs⟩
  · exact absurd rfl h
  · rw [List.foldl_cons, pickBestStep_none]
    have hs := foldl_pickBestStep_isSome cc cr tr dw wc wt cap fam cs
      (c, pickBestScore c cc cr tr dw wc wt cap fam)
    rcases Option.isSome_iff_exists.mp hs with ⟨p, hp⟩
    rw [hp]
    rfl

lemma foldl_pickBestStep_mem (cc : ℚ) (cr tr : RangeR) (dw wc wt : ℚ)
    (cap : Option ℚ) (fam : String → ℕ) (full : List Candidate) :
    ∀ (l : List Candidate) (acc : Option (Candidate × ℚ)),
      (∀ p, acc = some p → p.1 ∈ full) → (∀ x ∈ l, x ∈ full) →
      ∀ p, l.foldl (pickBestStep cc cr tr dw wc wt cap fam) acc = some p →
        p.1 ∈ full := by
  intro l
  induction l with
  | nil => intro acc hacc _ p hp; exact hacc p hp
  | cons x xs ih =>
    intro acc hacc hsub p hp
    rw [List.foldl_cons] at hp
    refine ih _ ?_ (fun y hy => hsub y (List.mem_cons_of_mem _ hy)) p hp
    intro q hq
    rcases acc with _ | b
    · rw [pickBestStep_none] at hq
      cases hq
      exact hsub x (List.mem_cons_self x xs)
    · rw [pickBestStep_some] at hq
      split at hq
      · cases hq; exact hsub x (List.mem_cons_self x xs)
      · cases hq; exact hacc _ rfl

lemma pickBest_mem (list : List Candidate) (cc : ℚ) (cr tr : RangeR)
    (dw wc wt : ℚ) (cap : Option ℚ) (fam : String → ℕ) (c : Candidate)
    (h : pickBest list cc cr tr dw wc wt cap fam = some c) : c ∈ list := by
  rw [pickBest] at h
  rcases ho : list.foldl (pickBestStep cc cr tr dw wc wt cap fam) none with _ | p
  · rw [ho] at h; exact absurd h (by simp)
  · rw [ho] at h
    have h1 : p.1 = c := by injection h
    subst h1
    exact foldl_pickBestStep_mem cc cr tr dw wc wt cap fam list list none
      (by intro q hq; cases hq) (fun x hx => hx) p ho

lemma compat_zero_imp_one (c : Candidate) (slot : MealSlot)
    (h : isSlotCompatibleWithFallback c slot 0 = true) :
    isSlotCompatibleWithFallback c slot 1 = true := by
  rw [isSlotCompatibleWithFallback] at h
  rw [isSlotCompatibleWithFallback]
  simp only [if_pos rfl] at h
  have h1 : (1 : ℕ) ≠ 0 := one_ne_zero
  rw [if_neg h1]
  cases slot <;> simp_all

lemma phasePass_imp_E (o : NOpts) (st : PState) (d : ℤ) (slot : MealSlot)
    (c : Candidate) (hcap : 1 ≤ o.maxRepeatsPerWeek) :
    ∀ i, i < 5 → phasePass o st d slot i c = true → phasePass o st d slot 4 c = true := by
  intro i hi h
  interval_cases i <;> simp only [phasePass] at h ⊢ <;>
    simp only [decide_eq_true_eq] at h ⊢
  · exact ⟨by omega, compat_zero_imp_one c slot h.2⟩
  · exact ⟨h.1, compat_zero_imp_one c slot h.2.1⟩
  · exact ⟨h.1, compat_zero_imp_one c slot h.2⟩
  · exact ⟨h.1, h.2.1⟩
  · exact h

lemma tryPhases_eq_none (pool : List Candidate) (o : NOpts) (cr tr : RangeR)
    (st : PState) (d : ℤ) (slot : MealSlot) :
    ∀ (phs : List ℕ), (∀ i ∈ phs, pool.filter (phasePass o st d slot i) = []) →
      tryPhases pool o cr tr st d slot phs = none := by
  intro phs
  induction phs with
  | nil => intro _; rfl
  | cons i rest ih =>
    intro h
    rw [tryPhases]
    rw [h i (List.mem_cons_self i rest)]
    rw [if_pos (show (([] : List Candidate).isEmpty = true) from rfl)]
    exact ih fun j hj => h j (List.mem_cons_of_mem _ hj)

lemma tryPhases_isSome (pool : List Candidate) (o : NOpts) (cr tr : RangeR)
    (st : PState) (d : ℤ) (slot : MealSlot) :
    ∀ (phs : List ℕ), (∃ i ∈ phs, pool.filter (phasePass o st d slot i) ≠ []) →
      (tryPhases pool o cr tr st d slot phs).isSome = true := by
  intro phs
  induction phs with
  | nil => rintro ⟨i, hi, _⟩; cases hi
  | cons i rest ih =>
    rintro ⟨j, hj, hne⟩
    rw [tryPhases]
    by_cases hemp : (pool.filter (phasePass o st d slot i)).isEmpty
    · rw [if_pos hemp]
      rcases List.mem_cons.mp hj with rfl | hjr
      · exact absurd (List.isEmpty_iff.mp hemp) hne
      · exact ih ⟨j, hjr, hne⟩
    · rw [if_neg hemp]
      have hlist : pool.filter (phasePass o st d slot i) ≠ [] := by
        intro h0; exact hemp (by rw [h0]; rfl)
      have hsome := pickBest_isSome (pool.filter (phasePass o st d slot i))
        st.runningCost cr tr o.diversityWeight o.weightCost o.weightTime
        o.budgetCapUSD st.usedFamilies hlist
      rcases Option.isSome_iff_exists.mp hsome with ⟨p, hp⟩
      rw [hp]
      rfl

lemma tryPhases_mem (pool : List Candidate) (o : NOpts) (cr tr : RangeR)
    (st : PState) (d : ℤ) (slot : MealSlot) :
    ∀ (phs : List ℕ) (c : Candidate),
      tryPhases pool o cr tr st d slot phs = some c →
      ∃ i ∈ phs, c ∈ pool.filter (phasePass o st d slot i) := by
  intro phs
  induction phs with
  | nil => intro c h; cases h
  | cons i rest ih =>
    intro c h
    rw [tryPhases] at h
    by_cases hemp : (pool.filter (phasePass o st d slot i)).isEmpty
    · rw [if_pos hemp] at h
      rcases ih c h with ⟨j, hj, hc⟩
      exact ⟨j, List.mem_cons_of_mem _ hj, hc⟩
    · rw [if_neg hemp] at h
      rcases hb : pickBest (pool.filter (phasePass o st d slot i)) st.runningCost
          cr tr o.diversityWeight o.weightCost o.weightTime o.budgetCapUSD
          st.usedFamilies with _ | c'
      · rw [hb] at h
        rcases ih c h with ⟨j, hj, hc⟩
        exact ⟨j, List.mem_cons_of_mem _ hj, hc⟩
      · rw [hb] at h
        have hc : c' = c := by injection h
        subst hc
        exact ⟨i, List.mem_cons_self i rest, pickBest_mem _ _ _ _ _ _ _ _ _ c' hb⟩

lemma pickForSlot_mem (pool : List Candidate) (o : NOpts) (cr tr : RangeR)
    (st : PState) (d : ℤ) (slot : MealSlot) (c : Candidate)
    (h : pickForSlot pool o cr tr st d slot = some c) :
    c ∈ pool ∧ ∃ i, i < 5 ∧ phasePass o st d slot i c = true := by
  rcases tryPhases_mem pool o cr tr st d slot [0, 1, 2, 3, 4] c h with ⟨i, hi, hc⟩
  rcases List.mem_filter.mp hc with ⟨hcp, hpass⟩
  refine ⟨hcp, i, ?_, hpass⟩
  simp only [List.mem_cons, List.not_mem_nil, or_false] at hi
  omega

lemma pickForSlot_usedCount_lt (pool : List Candidate) (o : NOpts) (cr tr : RangeR)
    (st : PState) (d : ℤ) (slot : MealSlot) (c : Candidate)
    (hcap : 1 ≤ o.maxRepeatsPerWeek)
    (h : pickForSlot pool o cr tr st d slot = some c) :
    usedCount st c < o.maxRepeatsPerWeek := by
  rcases pickForSlot_mem pool o cr tr st d slot c h with ⟨_, i, hi, hpass⟩
  have hE := phasePass_imp_E o st d slot c hcap i hi hpass
  simp only [phasePass, decide_eq_true_eq] at hE
  exact hE.1

lemma pickForSlot_none_of_no_E (pool : List Candidate) (o : NOpts) (cr tr : RangeR)
    (st : PState) (d : ℤ) (slot : MealSlot) (hcap : 1 ≤ o.maxRepeatsPerWeek)
    (h : ∀ c ∈ pool, phasePass o st d slot 4 c = false) :
    pickForSlot pool o cr tr st d slot = none := by
  refine tryPhases_eq_none pool o cr tr st d slot [0, 1, 2, 3, 4] ?_
  intro i hi
  rw [List.filter_eq_nil_iff]
  intro c hc
  intro hpass
  have hi5 : i < 5 := by
    simp only [List.mem_cons, List.not_mem_nil, or_false] at hi
    omega
  have hE := phasePass_imp_E o st d slot c hcap i hi5 hpass
  rw [h c hc] at hE
  cases hE

lemma pickForSlot_isSome_of_passC (pool : List Candidate) (o : NOpts)
    (cr tr : RangeR) (st : PState) (d : ℤ) (slot : MealSlot)
    (h : pool.filter (phasePass o st d slot 2) ≠ []) :
    (pickForSlot pool o cr tr st d slot).isSome = true :=
  tryPhases_isSome pool o cr tr st d slot [0, 1, 2, 3, 4] ⟨2, by simp, h⟩

lemma foldl_cellStep_invariant (pool : List Candidate) (o : NOpts) (cr tr : RangeR)
    (P : PState → Prop)
    (hstep : ∀ st cell, P st → P (cellStep pool o cr tr st cell)) :
    ∀ (cs : List (ℕ × MealSlot)) (st : PState),
      P st → P (cs.foldl (cellStep pool o cr tr) st) := by
  intro cs
  induction cs with
  | nil => intro st h; exact h
  | cons x xs ih =>
    intro st h
    rw [List.foldl_cons]
    exact ih _ (hstep st x h)

lemma one_le_maxRepeats (opts : PlanOptions) :
    1 ≤ (normalizeOpts opts).maxRepeatsPerWeek := by
  cases opts with
  | ofNumber w => exact le_refl _ |>.trans (by norm_num [normalizeOpts])
  | ofRecord o =>
    simp only [normalizeOpts]
    have h1 : (1 : ℤ) ≤ max 1 (min 7 ⌊o.maxRepeatsPerWeek.getD 3⌋) := le_max_left 1 _
    omega

end Nibble.mealPlanner

namespace Nibble

/-! ### Claim theorems C9 and C10 -/

/-- C9 as stated is false on the code: `mealPlanner`'s `range` widens a
degenerate axis to `min + 1`, so `norm` maps every pool value on that axis
to the constant 0, not to the midpoint 0.5. -/
theorem C9_counterexample :
    mealPlanner.range [5, 5] = ⟨5, 6⟩ ∧
    mealPlanner.norm 5 (mealPlanner.range [5, 5]).rmin (mealPlanner.range [5, 5]).rmax = 0 ∧
    (0 : ℚ) ≠ 1/2 := by
  have h : mealPlanner.range [5, 5] = ⟨5, 6⟩ := by
    rw [mealPlanner.range]
    norm_num
  refine ⟨h, ?_, by norm_num⟩
  rw [h, mealPlanner.norm]
  norm_num

/-- C9 amended: `scorePlan.norm01` does map a degenerate axis to the constant
midpoint 0.5, but `mealPlanner` instead widens the degenerate range
(`max := min + 1`) so that `norm` sends every value of a constant pool axis
to 0 — also a constant, avoiding division by zero, but not 0.5. -/
theorem C9_degenerate_axis_amended :
    (∀ (x lo hi : ℚ), hi ≤ lo → scorePlan.norm01 x lo hi = 1/2) ∧
    (∀ (v : ℚ) (vs : List ℚ), (∀ u ∈ vs, u = v) →
        mealPlanner.norm v (mealPlanner.range (v :: vs)).rmin
          (mealPlanner.range (v :: vs)).rmax = 0) := by
  constructor
  · intro x lo hi h
    rw [scorePlan.norm01, if_pos h]
  · intro v vs h
    rw [mealPlanner.range_all_eq v vs h, mealPlanner.norm]
    norm_num

/-- Witness for the amended C9: a degenerate axis `lo = hi = 2` in
`scorePlan` and the constant pool `[5, 5]` in `mealPlanner`. -/
theorem C9_degenerate_axis_amended_witness :
    ((2:ℚ) ≤ 2 ∧ scorePlan.norm01 3 2 2 = 1/2) ∧
    ((∀ u ∈ [(5:ℚ)], u = 5) ∧
      mealPlanner.norm 5 (mealPlanner.range [5, 5]).rmin
        (mealPlanner.range [5, 5]).rmax = 0) :=
  ⟨⟨le_refl 2, C9_degenerate_axis_amended.1 3 2 2 (le_refl 2)⟩,
   ⟨by simp, C9_degenerate_axis_amended.2 5 [5] (by simp)⟩⟩

/-- C10 as stated is false on the code: `mealPlanner.pickBest` adds a
budget term (`costN × 1.25`) to each candidate's score during per-cell
selection once the running cost exceeds the cap — here it flips the winner
of a cell from the costly fast candidate to the cheap slow one. -/
theorem C10_counterexample :
    mealPlanner.pickBest [mealPlanner.cheapSlow, mealPlanner.costlyFast]
        0 ⟨1, 2⟩ ⟨5, 10⟩ 0 0 1 (some 10) (fun _ => 0) =
      some mealPlanner.costlyFast ∧
    mealPlanner.pickBest [mealPlanner.cheapSlow, mealPlanner.costlyFast]
        11 ⟨1, 2⟩ ⟨5, 10⟩ 0 0 1 (some 10) (fun _ => 0) =
      some mealPlanner.cheapSlow ∧
    mealPlanner.cheapSlow ≠ mealPlanner.costlyFast := by
  refine ⟨?_, ?_, ?_⟩
  · rw [mealPlanner.pickBest, List.foldl_cons, mealPlanner.pickBestStep_none,
      List.foldl_cons, mealPlanner.pickBestStep_some, if_pos ?_]
    · rfl
    · rw [mealPlanner.pickBestScore, mealPlanner.pickBestScore]
      norm_num [mealPlanner.norm, mealPlanner.diversityPenalty,
        mealPlanner.cheapSlow, mealPlanner.costlyFast]
  · rw [mealPlanner.pickBest, List.foldl_cons, mealPlanner.pickBestStep_none,
      List.foldl_cons, mealPlanner.pickBestStep_some, if_neg ?_]
    · rfl
    · rw [mealPlanner.pickBestScore, mealPlanner.pickBestScore]
      norm_num [mealPlanner.norm, mealPlanner.diversityPenalty,
        mealPlanner.cheapSlow, mealPlanner.costlyFast]
  · intro h
    have : mealPlanner.cheapSlow.id = mealPlanner.costlyFast.id := by rw [h]
    simp [mealPlanner.cheapSlow, mealPlanner.costlyFast] at this

lemma dayStep_budget_irrel (pool : List scorePlan.PlanRecipe) (b : scorePlan.Bounds)
    (w : scorePlan.ScoreWeights) (cs : scorePlan.PlanConstraints) (cap2 : Option ℚ) :
    scorePlan.dayStep pool b w { cs with budgetCapUSD := cap2 } =
      scorePlan.dayStep pool b w cs := rfl

lemma pickBestScore_no_over (cc cap : ℚ) (h : ¬ cap < cc) :
    ∀ (c : mealPlanner.Candidate) (cr tr : mealPlanner.RangeR) (dw wc wt : ℚ)
      (fam : String → ℕ),
      mealPlanner.pickBestScore c cc cr tr dw wc wt (some cap) fam =
        mealPlanner.pickBestScore c cc cr tr dw wc wt none fam := by
  intro c cr tr dw wc wt fam
  rw [mealPlanner.pickBestScore, mealPlanner.pickBestScore]
  simp only [if_neg h]

/-- C10 amended: `scorePlan.pickWeek` applies the over-budget penalty once at
reporting time — the selected days are identical under any budget cap, and
`scoreSum` is the sum of the day scores minus a single penalty that is
non-zero only when the rounded weekly total exceeds a non-zero cap. In
`mealPlanner`, however, `pickBest` does add a per-cell budget bias
(`costN × 1.25`) during selection once the running cost exceeds the cap
(see the counterexample); that bias is soft: with the cap not yet exceeded
the selection is as without a cap, and a non-empty admissible list always
yields a pick, so exceeding the budget never hard-excludes a candidate. -/
theorem C10_budget_penalty_amended :
    (∀ (pool : List scorePlan.PlanRecipe) (w : scorePlan.ScoreWeights)
        (cs : scorePlan.PlanConstraints) (cap2 : Option ℚ),
        (scorePlan.pickWeek pool w { cs with budgetCapUSD := cap2 }).days =
          (scorePlan.pickWeek pool w cs).days) ∧
    (∀ (pool : List scorePlan.PlanRecipe) (w : scorePlan.ScoreWeights)
        (cs : scorePlan.PlanConstraints), pool ≠ [] → ∃ pen : ℚ,
        (scorePlan.pickWeek pool w cs).varietyScore = -pen ∧
        (scorePlan.pickWeek pool w cs).scoreSum =
          ((scorePlan.pickWeek pool w cs).days.foldl (fun t d => t + d.score) 0) - pen ∧
        (pen = 0 ∨ ∃ cap, cs.budgetCapUSD = some cap ∧ cap ≠ 0 ∧
            cap < (scorePlan.pickWeek pool w cs).totalsCostUSD ∧
            pen = ((scorePlan.pickWeek pool w cs).totalsCostUSD - cap) *
              w.overBudgetPenalty)) ∧
    (∀ (list : List mealPlanner.Candidate) (cc : ℚ) (cr tr : mealPlanner.RangeR)
        (dw wc wt : ℚ) (fam : String → ℕ) (cap : ℚ), ¬ cap < cc →
        mealPlanner.pickBest list cc cr tr dw wc wt (some cap) fam =
          mealPlanner.pickBest list cc cr tr dw wc wt none fam) ∧
    (∀ (list : List mealPlanner.Candidate) (cc : ℚ) (cr tr : mealPlanner.RangeR)
        (dw wc wt : ℚ) (cap : Option ℚ) (fam : String → ℕ), list ≠ [] →
        (mealPlanner.pickBest list cc cr tr dw wc wt cap fam).isSome = true) := by
  refine ⟨?_, ?_, ?_, ?_⟩
  · intro pool w cs cap2
    rcases pool with _ | ⟨p, ps⟩
    · rfl
    · rw [scorePlan.pickWeek_days_eq, scorePlan.pickWeek_days_eq, dayStep_budget_irrel]
  · intro pool w cs hpool
    rcases pool with _ | ⟨p, ps⟩
    · exact absurd rfl hpool
    · rw [scorePlan.pickWeek]
      cases hb : cs.budgetCapUSD with
      | none =>
        refine ⟨0, by simp, by simp, Or.inl rfl⟩
      | some cap =>
        split
        next cap2 heq =>
          injection heq with h
          subst h
          split
          next hover =>
            exact ⟨_, rfl, rfl, Or.inr ⟨cap, rfl, hover.1, hover.2, rfl⟩⟩
          next hnot =>
            exact ⟨0, by simp, by simp, Or.inl rfl⟩
        next heq => cases heq
  · intro list cc cr tr dw wc wt fam cap h
    rw [mealPlanner.pickBest, mealPlanner.pickBest]
    have hstep : mealPlanner.pickBestStep cc cr tr dw wc wt (some cap) fam =
        mealPlanner.pickBestStep cc cr tr dw wc wt none fam := by
      funext acc c
      rcases acc with _ | b
      · rw [mealPlanner.pickBestStep_none, mealPlanner.pickBestStep_none,
          pickBestScore_no_over cc cap h]
      · rw [mealPlanner.pickBestStep_some, mealPlanner.pickBestStep_some,
          pickBestScore_no_over cc cap h]
    rw [hstep]
  · intro list cc cr tr dw wc wt cap fam h
    exact mealPlanner.pickBest_isSome list cc cr tr dw wc wt cap fam h

/-- Witness for the amended C10: a one-recipe pool with no cap (penalty 0),
and `pickBest` on a singleton with the running cost within the cap. -/
theorem C10_budget_penalty_amended_witness :
    ([scorePlan.cex1Recipe] ≠ [] ∧ ∃ pen : ℚ,
        (scorePlan.pickWeek [scorePlan.cex1Recipe] scorePlan.cex1Weights
            scorePlan.cex1Constraints).varietyScore = -pen ∧
        (scorePlan.pickWeek [scorePlan.cex1Recipe] scorePlan.cex1Weights
            scorePlan.cex1Constraints).scoreSum =
          ((scorePlan.pickWeek [scorePlan.cex1Recipe] scorePlan.cex1Weights
              scorePlan.cex1Constraints).days.foldl (fun t d => t + d.score) 0) - pen ∧
        (pen = 0 ∨ ∃ cap, scorePlan.cex1Constraints.budgetCapUSD = some cap ∧
            cap ≠ 0 ∧
            cap < (scorePlan.pickWeek [scorePlan.cex1Recipe] scorePlan.cex1Weights
                scorePlan.cex1Constraints).totalsCostUSD ∧
            pen = ((scorePlan.pickWeek [scorePlan.cex1Recipe] scorePlan.cex1Weights
                scorePlan.cex1Constraints).totalsCostUSD - cap) *
              scorePlan.cex1Weights.overBudgetPenalty)) ∧
    (¬ (10:ℚ) < 0 ∧
      mealPlanner.pickBest [mealPlanner.cheapSlow] 0 ⟨1, 2⟩ ⟨5, 10⟩ 0 0 1
          (some 10) (fun _ => 0) =
        mealPlanner.pickBest [mealPlanner.cheapSlow] 0 ⟨1, 2⟩ ⟨5, 10⟩ 0 0 1
          none (fun _ => 0)) ∧
    ([mealPlanner.cheapSlow] ≠ [] ∧
      (mealPlanner.pickBest [mealPlanner.cheapSlow] 0 ⟨1, 2⟩ ⟨5, 10⟩ 0 0 1
          (some 10) (fun _ => 0)).isSome = true) :=
  ⟨⟨List.cons_ne_nil _ _,
    C10_budget_penalty_amended.2.1 [scorePlan.cex1Recipe] scorePlan.cex1Weights
      scorePlan.cex1Constraints (List.cons_ne_nil _ _)⟩,
   ⟨by norm_num,
    C10_budget_penalty_amended.2.2.1 [mealPlanner.cheapSlow] 0 ⟨1, 2⟩ ⟨5, 10⟩
      0 0 1 (fun _ => 0) 10 (by norm_num)⟩,
   ⟨List.cons_ne_nil _ _,
    C10_budget_penalty_amended.2.2.2 [mealPlanner.cheapSlow] 0 ⟨1, 2⟩ ⟨5, 10⟩
      0 0 1 (some 10) (fun _ => 0) (List.cons_ne_nil _ _)⟩⟩

/-! ### The planWeek loop invariants (claims C3, C4) -/

lemma countTitle_nil (k : String) : mealPlanner.countTitle [] k = 0 := rfl

lemma countTitle_append_single (l : List mealPlanner.DaySlot)
    (s : mealPlanner.DaySlot) (k : String) :
    mealPlanner.countTitle (l ++ [s]) k =
      mealPlanner.countTitle l k +
        (if mealPlanner.titleKey s.recipe.title = k then 1 else 0) := by
  rw [mealPlanner.countTitle, mealPlanner.countTitle, List.filter_append,
    List.length_append]
  congr 1
  by_cases h : mealPlanner.titleKey s.recipe.title = k
  · rw [if_pos h]
    simp [List.filter_cons, h]
  · rw [if_neg h]
    simp [List.filter_cons, h]

lemma planWeek_slots (cands : List mealPlanner.Candidate) (opts : mealPlanner.PlanOptions) :
    (mealPlanner.planWeek cands opts).slots =
      if cands.isEmpty then []
      else ((mealPlanner.cells (mealPlanner.normalizeOpts opts).days
          (mealPlanner.slotsForMealsPerDay (mealPlanner.normalizeOpts opts).mealsPerDay)).foldl
        (mealPlanner.cellStep cands (mealPlanner.normalizeOpts opts)
          (mealPlanner.range (cands.map (·.costUSD)))
          (mealPlanner.range (cands.map (·.minutes))))
        mealPlanner.initState).chosen := by
  rw [mealPlanner.planWeek]
  by_cases h : cands.isEmpty
  · rw [if_pos h, if_pos h]
    rfl
  · rw [if_neg h, if_neg h]

lemma cellStep_title_invariant (pool : List mealPlanner.Candidate)
    (o : mealPlanner.NOpts) (cr tr : mealPlanner.RangeR)
    (hcap : 1 ≤ o.maxRepeatsPerWeek) (st : mealPlanner.PState)
    (cell : ℕ × mealPlanner.MealSlot)
    (h1 : ∀ k, st.usedTitles k = mealPlanner.countTitle st.chosen k)
    (h2 : ∀ k, st.usedTitles k ≤ o.maxRepeatsPerWeek) :
    (∀ k, (mealPlanner.cellStep pool o cr tr st cell).usedTitles k =
        mealPlanner.countTitle (mealPlanner.cellStep pool o cr tr st cell).chosen k) ∧
    (∀ k, (mealPlanner.cellStep pool o cr tr st cell).usedTitles k ≤
        o.maxRepeatsPerWeek) := by
  rw [mealPlanner.cellStep]
  rcases hp : mealPlanner.pickForSlot pool o cr tr st (cell.1 : ℤ) cell.2 with _ | c
  · exact ⟨h1, h2⟩
  · have hlt := mealPlanner.pickForSlot_usedCount_lt pool o cr tr st
      (cell.1 : ℤ) cell.2 c hcap hp
    rw [mealPlanner.usedCount] at hlt
    constructor
    · intro k
      simp only [mealPlanner.applyPick]
      rw [countTitle_append_single, ← h1 k]
      have htp : mealPlanner.titleKey (mealPlanner.toPlanRecipe c).title =
          mealPlanner.titleKey c.title := rfl
      rw [htp]
      by_cases hk : k = mealPlanner.titleKey c.title
      · subst hk
        rw [if_pos rfl, if_pos rfl]
      · rw [if_neg hk, if_neg (fun hh => hk hh.symm)]
        omega
    · intro k
      simp only [mealPlanner.applyPick]
      by_cases hk : k = mealPlanner.titleKey c.title
      · subst hk
        rw [if_pos rfl]
        omega
      · rw [if_neg hk]
        exact h2 k

/-- C4: in every plan produced by `planWeek`, each recipe title — compared
case-insensitively after trimming via `titleKey` — appears at most
`maxRepeatsPerWeek` (as normalized from the options) times across the whole
week, for every pool, options and number of days. -/
theorem C4_repeat_cap (cands : List mealPlanner.Candidate)
    (opts : mealPlanner.PlanOptions) (title : String) :
    mealPlanner.countTitle (mealPlanner.planWeek cands opts).slots
        (mealPlanner.titleKey title) ≤
      (mealPlanner.normalizeOpts opts).maxRepeatsPerWeek := by
  rw [planWeek_slots]
  by_cases h : cands.isEmpty
  · rw [if_pos h, countTitle_nil]
    exact Nat.zero_le _
  · rw [if_neg h]
    have hcap := mealPlanner.one_le_maxRepeats opts
    have inv := mealPlanner.foldl_cellStep_invariant cands (mealPlanner.normalizeOpts opts)
      (mealPlanner.range (cands.map (·.costUSD))) (mealPlanner.range (cands.map (·.minutes)))
      (fun st => (∀ k, st.usedTitles k = mealPlanner.countTitle st.chosen k) ∧
        (∀ k, st.usedTitles k ≤ (mealPlanner.normalizeOpts opts).maxRepeatsPerWeek))
      (fun st cell hP => cellStep_title_invariant cands (mealPlanner.normalizeOpts opts)
        _ _ hcap st cell hP.1 hP.2)
      (mealPlanner.cells (mealPlanner.normalizeOpts opts).days
        (mealPlanner.slotsForMealsPerDay (mealPlanner.normalizeOpts opts).mealsPerDay))
      mealPlanner.initState
      ⟨fun k => rfl, fun k => Nat.zero_le _⟩
    rcases inv with ⟨hinv1, hinv2⟩
    rw [← hinv1 (mealPlanner.titleKey title)]
    exact hinv2 (mealPlanner.titleKey title)

lemma cellStep_from_pool (pool : List mealPlanner.Candidate)
    (o : mealPlanner.NOpts) (cr tr : mealPlanner.RangeR)
    (st : mealPlanner.PState) (cell : ℕ × mealPlanner.MealSlot)
    (h : ∀ s ∈ st.chosen, ∃ c ∈ pool, s.recipe = mealPlanner.toPlanRecipe c) :
    ∀ s ∈ (mealPlanner.cellStep pool o cr tr st cell).chosen,
      ∃ c ∈ pool, s.recipe = mealPlanner.toPlanRecipe c := by
  rw [mealPlanner.cellStep]
  rcases hp : mealPlanner.pickForSlot pool o cr tr st (cell.1 : ℤ) cell.2 with _ | c
  · exact h
  · simp only [mealPlanner.applyPick]
    intro s hs
    rcases List.mem_append.mp hs with hs1 | hs2
    · exact h s hs1
    · have hs3 := List.mem_singleton.mp hs2
      subst hs3
      exact ⟨c, (mealPlanner.pickForSlot_mem pool o cr tr st _ _ c hp).1, rfl⟩

/-- C3: when no candidate is admissible for a cell even under the most
relaxed phase E, `pickForSlot` returns nothing and the cell stays unfilled
(nothing is appended for it, leaving the shortfall observable as a missing
slot); and every slot that does appear in a produced plan is the projection
of a candidate from the input pool — the scheduler never invents a
placeholder meal. -/
theorem C3_shortfall_left_unfilled :
    (∀ (pool : List mealPlanner.Candidate) (o : mealPlanner.NOpts)
        (cr tr : mealPlanner.RangeR) (st : mealPlanner.PState)
        (d : ℤ) (slot : mealPlanner.MealSlot),
        1 ≤ o.maxRepeatsPerWeek →
        (∀ c ∈ pool, mealPlanner.phasePass o st d slot 4 c = false) →
        mealPlanner.pickForSlot pool o cr tr st d slot = none) ∧
    (∀ (cands : List mealPlanner.Candidate) (opts : mealPlanner.PlanOptions),
        ∀ s ∈ (mealPlanner.planWeek cands opts).slots,
          ∃ c ∈ cands, s.recipe = mealPlanner.toPlanRecipe c) := by
  constructor
  · intro pool o cr tr st d slot hcap h
    exact mealPlanner.pickForSlot_none_of_no_E pool o cr tr st d slot hcap h
  · intro cands opts s hs
    rw [planWeek_slots] at hs
    by_cases h : cands.isEmpty
    · rw [if_pos h] at hs
      cases hs
    · rw [if_neg h] at hs
      have inv := mealPlanner.foldl_cellStep_invariant cands
        (mealPlanner.normalizeOpts opts)
        (mealPlanner.range (cands.map (·.costUSD)))
        (mealPlanner.range (cands.map (·.minutes)))
        (fun st => ∀ s ∈ st.chosen, ∃ c ∈ cands, s.recipe = mealPlanner.toPlanRecipe c)
        (fun st cell hP => cellStep_from_pool cands (mealPlanner.normalizeOpts opts)
          _ _ st cell hP)
        (mealPlanner.cells (mealPlanner.normalizeOpts opts).days
          (mealPlanner.slotsForMealsPerDay (mealPlanner.normalizeOpts opts).mealsPerDay))
        mealPlanner.initState
        (fun s hs => absurd hs (List.not_mem_nil s))
      exact inv s hs

/-- Witness for C3: a breakfast-only candidate is inadmissible for a dinner
cell even at phase E, so the cell is left unfilled; and the single slot of a
1-day, 1-meal plan is the projection of the pool's candidate. -/
theorem C3_shortfall_left_unfilled_witness :
    (1 ≤ (⟨1, 0, 0, 0, none, 1, 3, true⟩ : mealPlanner.NOpts).maxRepeatsPerWeek ∧
     (∀ c ∈ [mealPlanner.breakfastOnly],
        mealPlanner.phasePass ⟨1, 0, 0, 0, none, 1, 3, true⟩ mealPlanner.initState 0
          .dinner 4 c = false) ∧
     mealPlanner.pickForSlot [mealPlanner.breakfastOnly]
        ⟨1, 0, 0, 0, none, 1, 3, true⟩ ⟨2, 3⟩ ⟨5, 6⟩
        mealPlanner.initState 0 .dinner = none) ∧
    ((⟨0, .dinner, mealPlanner.toPlanRecipe mealPlanner.cex2Candidate⟩ :
        mealPlanner.DaySlot) ∈
        (mealPlanner.planWeek [mealPlanner.cex2Candidate] mealPlanner.oneCellOpts).slots ∧
     ∃ c ∈ [mealPlanner.cex2Candidate],
        (⟨0, .dinner, mealPlanner.toPlanRecipe mealPlanner.cex2Candidate⟩ :
          mealPlanner.DaySlot).recipe = mealPlanner.toPlanRecipe c) :=
  ⟨⟨by decide, by decide,
    C3_shortfall_left_unfilled.1 [mealPlanner.breakfastOnly]
      ⟨1, 0, 0, 0, none, 1, 3, true⟩ ⟨2, 3⟩ ⟨5, 6⟩ mealPlanner.initState 0 .dinner
      (by decide) (by decide)⟩,
   ⟨by decide,
    C3_shortfall_left_unfilled.2 [mealPlanner.cex2Candidate] mealPlanner.oneCellOpts
      ⟨0, .dinner, mealPlanner.toPlanRecipe mealPlanner.cex2Candidate⟩ (by decide)⟩⟩

/-! ### Coverage (claim C2) -/

/-- C2 as stated is false on the code: a pool with one untagged candidate
(`planWeek` applies no hard exclusion, so it is trivially not hard-excluded)
with `mealsPerDay = 3` over 1 day fills only the lunch and dinner cells —
an untagged candidate is incompatible with the breakfast slot even at the
broadened phase — so the plan has 2 slots, not days × slotsPerDay = 3. -/
theorem C2_counterexample :
    [mealPlanner.cex2Candidate] ≠ [] ∧
    (mealPlanner.planWeek [mealPlanner.cex2Candidate] mealPlanner.cex2Opts).slots.length = 2 ∧
    (mealPlanner.normalizeOpts mealPlanner.cex2Opts).days *
      (mealPlanner.slotsForMealsPerDay
        (mealPlanner.normalizeOpts mealPlanner.cex2Opts).mealsPerDay).length = 3 ∧
    (2 : ℕ) ≠ 3 :=
  ⟨by decide, by decide, by decide, by decide⟩

lemma sum_map_ge_of_all_ge (f : String → ℕ) (m : ℕ) :
    ∀ (K : List String), (∀ k ∈ K, m ≤ f k) → m * K.length ≤ (K.map f).sum := by
  intro K
  induction K with
  | nil => intro _; simp
  | cons k ks ih =>
    intro h
    have h1 := h k (List.mem_cons_self k ks)
    have h2 := ih fun x hx => h x (List.mem_cons_of_mem _ hx)
    simp only [List.map_cons, List.sum_cons, List.length_cons]
    have : m * (ks.length + 1) = m * ks.length + m := by ring
    omega

lemma exists_key_below_cap (pool : List mealPlanner.Candidate)
    (st : mealPlanner.PState) (cap : ℕ)
    (h : mealPlanner.keySum pool st < cap * (mealPlanner.dedupKeys pool).length) :
    ∃ k ∈ mealPlanner.dedupKeys pool, st.usedTitles k < cap := by
  by_contra hc
  push_neg at hc
  have := sum_map_ge_of_all_ge st.usedTitles cap (mealPlanner.dedupKeys pool) hc
  rw [mealPlanner.keySum] at h
  omega

lemma sum_map_update (f : String → ℕ) (key : String) :
    ∀ (K : List String), K.Nodup → key ∈ K →
      (K.map fun k => if k = key then f k + 1 else f k).sum = (K.map f).sum + 1 := by
  intro K
  induction K with
  | nil => intro _ hk; cases hk
  | cons k ks ih =>
    intro hn hk
    simp only [List.map_cons, List.sum_cons]
    rcases List.mem_cons.mp hk with rfl | hks
    · rw [if_pos rfl]
      have hnot : key ∉ ks := (List.nodup_cons.mp hn).1
      have hcongr : (ks.map fun x => if x = key then f x + 1 else f x) = ks.map f := by
        apply List.map_congr_left
        intro x hx
        rw [if_neg]
        intro hxk
        exact hnot (hxk ▸ hx)
      rw [hcongr]
      omega
    · have hkne : k ≠ key := by
        intro hkk
        exact (List.nodup_cons.mp hn).1 (hkk ▸ hks)
      rw [if_neg hkne, ih (List.nodup_cons.mp hn).2 hks]
      omega

lemma keySum_applyPick (pool : List mealPlanner.Candidate)
    (st : mealPlanner.PState) (c : mealPlanner.Candidate) (hc : c ∈ pool)
    (d : ℕ) (slot : mealPlanner.MealSlot) :
    mealPlanner.keySum pool (mealPlanner.applyPick st c d slot) =
      mealPlanner.keySum pool st + 1 := by
  rw [mealPlanner.keySum, mealPlanner.keySum]
  simp only [mealPlanner.applyPick]
  apply sum_map_update st.usedTitles (mealPlanner.titleKey c.title)
    (mealPlanner.dedupKeys pool) (List.nodup_dedup _)
  rw [mealPlanner.dedupKeys, List.mem_dedup]
  exact List.mem_map.mpr ⟨c, hc, rfl⟩

lemma hasSlotTag_untagged (c : mealPlanner.Candidate)
    (h : mealPlanner.hasAnySlotTag c = false) (slot : mealPlanner.MealSlot)
    (hs : slot = .lunch ∨ slot = .dinner) : mealPlanner.hasSlotTag c slot = true := by
  rw [mealPlanner.hasSlotTag, if_pos (by simp [h])]
  rcases hs with rfl | rfl <;> decide

lemma cells_mem_slot (days : ℕ) (ds : List mealPlanner.MealSlot)
    (cell : ℕ × mealPlanner.MealSlot) (h : cell ∈ mealPlanner.cells days ds) :
    cell.2 ∈ ds := by
  rw [mealPlanner.cells] at h
  rcases List.mem_flatMap.mp h with ⟨d, _, hd⟩
  rcases List.mem_map.mp hd with ⟨s, hs, rfl⟩
  exact hs

lemma cells_length (days : ℕ) (ds : List mealPlanner.MealSlot) :
    (mealPlanner.cells days ds).length = days * ds.length := by
  rw [mealPlanner.cells]
  have main : ∀ (l : List ℕ),
      (l.flatMap fun d => ds.map fun s => (d, s)).length = l.length * ds.length := by
    intro l
    induction l with
    | nil => simp
    | cons x xs ih =>
      simp only [List.flatMap_cons, List.length_append, List.length_map, ih,
        List.length_cons]
      ring
  rw [main, List.length_range]

lemma slots_le2_lunch_dinner (m : ℕ) (hm : m ≤ 2) :
    ∀ s ∈ mealPlanner.slotsForMealsPerDay m,
      s = mealPlanner.MealSlot.lunch ∨ s = mealPlanner.MealSlot.dinner := by
  interval_cases m <;> simp [mealPlanner.slotsForMealsPerDay]

lemma cells_fill (pool : List mealPlanner.Candidate) (o : mealPlanner.NOpts)
    (cr tr : mealPlanner.RangeR)
    (huntag : ∀ c ∈ pool, mealPlanner.hasAnySlotTag c = false) :
    ∀ (cls : List (ℕ × mealPlanner.MealSlot)) (st : mealPlanner.PState),
      (∀ cell ∈ cls, cell.2 = mealPlanner.MealSlot.lunch ∨
        cell.2 = mealPlanner.MealSlot.dinner) →
      mealPlanner.keySum pool st = st.chosen.length →
      st.chosen.length + cls.length ≤
        o.maxRepeatsPerWeek * (mealPlanner.dedupKeys pool).length →
      (cls.foldl (mealPlanner.cellStep pool o cr tr) st).chosen.length =
        st.chosen.length + cls.length := by
  intro cls
  induction cls with
  | nil => intro st _ _ _; simp
  | cons cell rest ih =>
    intro st hslots hksum hlen
    have hlt : mealPlanner.keySum pool st <
        o.maxRepeatsPerWeek * (mealPlanner.dedupKeys pool).length := by
      rw [hksum]
      simp only [List.length_cons] at hlen
      omega
    rcases exists_key_below_cap pool st o.maxRepeatsPerWeek hlt with ⟨k, hkmem, hkcap⟩
    rcases List.mem_map.mp (List.mem_dedup.mp
      (by rw [mealPlanner.dedupKeys] at hkmem; exact hkmem)) with ⟨c, hc, hck⟩
    have hpass : mealPlanner.phasePass o st (cell.1 : ℤ) cell.2 2 c = true := by
      simp only [mealPlanner.phasePass, decide_eq_true_eq]
      constructor
      · have hck' : mealPlanner.titleKey c.title = k := hck
        rw [mealPlanner.usedCount, hck']
        exact hkcap
      · rw [mealPlanner.isSlotCompatibleWithFallback, if_pos rfl]
        exact hasSlotTag_untagged c (huntag c hc) cell.2
          (hslots cell (List.mem_cons_self cell rest))
    have hfilter : pool.filter (mealPlanner.phasePass o st (cell.1 : ℤ) cell.2 2) ≠ [] := by
      intro h0
      have := List.filter_eq_nil_iff.mp h0 c hc
      rw [hpass] at this
      cases this rfl
    have hsome := mealPlanner.pickForSlot_isSome_of_passC pool o cr tr st
      (cell.1 : ℤ) cell.2 hfilter
    rcases Option.isSome_iff_exists.mp hsome with ⟨c', hc'⟩
    rw [List.foldl_cons]
    have hcell : mealPlanner.cellStep pool o cr tr st cell =
        mealPlanner.applyPick st c' cell.1 cell.2 := by
      rw [mealPlanner.cellStep, hc']
    rw [hcell]
    have hc'pool : c' ∈ pool :=
      (mealPlanner.pickForSlot_mem pool o cr tr st (cell.1 : ℤ) cell.2 c' hc').1
    have hlen' : (mealPlanner.applyPick st c' cell.1 cell.2).chosen.length =
        st.chosen.length + 1 := by
      simp [mealPlanner.applyPick]
    have hres := ih (mealPlanner.applyPick st c' cell.1 cell.2)
      (fun x hx => hslots x (List.mem_cons_of_mem _ hx))
      (by rw [keySum_applyPick pool st c' hc'pool, hksum, hlen'])
      (by rw [hlen']; simp only [List.length_cons] at hlen; omega)
    rw [hres, hlen']
    simp only [List.length_cons]
    omega

/-- C2 amended: `planWeek` performs no hard exclusion at all, and coverage
as stated fails (see the counterexample): a cell is only fillable by a
candidate that is slot-compatible under the broadened ladder and still has
repeat budget. Coverage does hold in the lunch/dinner regime: if the
normalized pool is non-empty and all-untagged, `mealsPerDay ≤ 2` (so every
cell is a lunch or dinner cell), and `days × slotsPerDay` does not exceed
`maxRepeatsPerWeek ×` (number of distinct title keys in the pool), then
every day × slot cell of the output Plan is filled. -/
theorem C2_coverage_amended (cands : List mealPlanner.Candidate)
    (opts : mealPlanner.PlanOptions)
    (hne : cands ≠ [])
    (huntag : ∀ c ∈ cands, mealPlanner.hasAnySlotTag c = false)
    (hm : (mealPlanner.normalizeOpts opts).mealsPerDay ≤ 2)
    (hbudget : (mealPlanner.normalizeOpts opts).days *
        (mealPlanner.slotsForMealsPerDay
          (mealPlanner.normalizeOpts opts).mealsPerDay).length ≤
      (mealPlanner.normalizeOpts opts).maxRepeatsPerWeek *
        (mealPlanner.dedupKeys cands).length) :
    (mealPlanner.planWeek cands opts).slots.length =
      (mealPlanner.normalizeOpts opts).days *
        (mealPlanner.slotsForMealsPerDay
          (mealPlanner.normalizeOpts opts).mealsPerDay).length := by
  rw [planWeek_slots, if_neg (by simpa using hne)]
  have hfill := cells_fill cands (mealPlanner.normalizeOpts opts)
    (mealPlanner.range (cands.map (·.costUSD)))
    (mealPlanner.range (cands.map (·.minutes)))
    huntag
    (mealPlanner.cells (mealPlanner.normalizeOpts opts).days
      (mealPlanner.slotsForMealsPerDay (mealPlanner.normalizeOpts opts).mealsPerDay))
    mealPlanner.initState
    (fun cell hcell => slots_le2_lunch_dinner (mealPlanner.normalizeOpts opts).mealsPerDay
      hm cell.2 (cells_mem_slot _ _ cell hcell))
    (by simp [mealPlanner.keySum, mealPlanner.initState])
    (by rw [cells_length]; simpa [mealPlanner.initState] using hbudget)
  rw [hfill]
  simp only [mealPlanner.initState, List.length_nil, Nat.zero_add]
  exact cells_length _ _

/-- Witness for the amended C2: two untagged candidates with distinct
titles, 2 meals per day over 3 days, repeat cap 3: all 6 cells are filled. -/
theorem C2_coverage_amended_witness :
    ([mealPlanner.cex2Candidate, mealPlanner.cheapSlow] ≠ [] ∧
     (∀ c ∈ [mealPlanner.cex2Candidate, mealPlanner.cheapSlow],
        mealPlanner.hasAnySlotTag c = false) ∧
     (mealPlanner.normalizeOpts
        (.ofRecord ⟨2, 0, 1, none, none, some 3, none, none⟩)).mealsPerDay ≤ 2 ∧
     (mealPlanner.normalizeOpts
          (.ofRecord ⟨2, 0, 1, none, none, some 3, none, none⟩)).days *
        (mealPlanner.slotsForMealsPerDay
          (mealPlanner.normalizeOpts
            (.ofRecord ⟨2, 0, 1, none, none, some 3, none, none⟩)).mealsPerDay).length ≤
      (mealPlanner.normalizeOpts
          (.ofRecord ⟨2, 0, 1, none, none, some 3, none, none⟩)).maxRepeatsPerWeek *
        (mealPlanner.dedupKeys
          [mealPlanner.cex2Candidate, mealPlanner.cheapSlow]).length) ∧
    (mealPlanner.planWeek [mealPlanner.cex2Candidate, mealPlanner.cheapSlow]
        (.ofRecord ⟨2, 0, 1, none, none, some 3, none, none⟩)).slots.length =
      (mealPlanner.normalizeOpts
          (.ofRecord ⟨2, 0, 1, none, none, some 3, none, none⟩)).days *
        (mealPlanner.slotsForMealsPerDay
          (mealPlanner.normalizeOpts
            (.ofRecord ⟨2, 0, 1, none, none, some 3, none, none⟩)).mealsPerDay).length :=
  ⟨⟨by decide, by decide, by decide, by decide⟩,
   C2_coverage_amended [mealPlanner.cex2Candidate, mealPlanner.cheapSlow]
     (.ofRecord ⟨2, 0, 1, none, none, some 3, none, none⟩)
     (by decide) (by decide) (by decide) (by decide)⟩

/-! ### Hard exclusion (claim C1) -/

/-- C1 as stated is false on the code: with a pool in which every candidate
is hard-blocked, `pickWeek`'s fallback (`safe ?? pool[0]`) fills all 7 days
with `pool[0]`, a candidate whose title matches a forbid term. -/
theorem C1_counterexample :
    scorePlan.hasForbiddenTerms (scorePlan.fullTexts scorePlan.cex1Recipe)
      scorePlan.cex1Constraints.forbidTerms = true ∧
    (scorePlan.pickWeek [scorePlan.cex1Recipe] scorePlan.cex1Weights
        scorePlan.cex1Constraints).days =
      List.replicate 7 ⟨scorePlan.cex1Recipe, -999⟩ :=
  ⟨by decide, by decide⟩

lemma scoreDayCandidate_blocked (r : scorePlan.PlanRecipe) (bounds : scorePlan.Bounds)
    (w : scorePlan.ScoreWeights) (cs : scorePlan.PlanConstraints) (day : ℕ)
    (h : scorePlan.hasForbiddenTerms (scorePlan.fullTexts r) cs.forbidTerms = true) :
    scorePlan.scoreDayCandidate r bounds w cs day = -1000000 := by
  rw [scorePlan.scoreDayCandidate, if_pos h]

lemma scoreDayCandidate_safe_ge (r : scorePlan.PlanRecipe) (bounds : scorePlan.Bounds)
    (w : scorePlan.ScoreWeights) (cs : scorePlan.PlanConstraints) (day : ℕ)
    (hwc : 0 ≤ w.weightCost) (hwt : 0 ≤ w.weightTime) (hrb : 0 ≤ w.reuseBonus)
    (hwp : w.windowPenalty ≤ 100000)
    (hsafe : scorePlan.hasForbiddenTerms (scorePlan.fullTexts r) cs.forbidTerms = false) :
    -100000 ≤ scorePlan.scoreDayCandidate r bounds w cs day := by
  rw [scorePlan.scoreDayCandidate, if_neg (by simp [hsafe])]
  show -100000 ≤
    w.weightCost * (1 - scorePlan.norm01 r.cost bounds.minCost bounds.maxCost) +
      w.weightTime * (1 - scorePlan.norm01 r.minutes bounds.minTime bounds.maxTime) +
      (scorePlan.reuseCount r.ingredients cs.pantryItems : ℚ) * w.reuseBonus -
      (if scorePlan.windowOK r.minutes
          ((cs.dayWindows.lookup day).getD .any) then (0:ℚ) else w.windowPenalty)
  have hc1 := scorePlan.norm01_le_one r.cost bounds.minCost bounds.maxCost
  have ht1 := scorePlan.norm01_le_one r.minutes bounds.minTime bounds.maxTime
  have h1 : (0:ℚ) ≤ w.weightCost * (1 - scorePlan.norm01 r.cost bounds.minCost bounds.maxCost) :=
    mul_nonneg hwc (by linarith)
  have h2 : (0:ℚ) ≤ w.weightTime * (1 - scorePlan.norm01 r.minutes bounds.minTime bounds.maxTime) :=
    mul_nonneg hwt (by linarith)
  have h3 : (0:ℚ) ≤ (scorePlan.reuseCount r.ingredients cs.pantryItems : ℚ) * w.reuseBonus :=
    mul_nonneg (Nat.cast_nonneg _) hrb
  have h4 : (if scorePlan.windowOK r.minutes
        ((cs.dayWindows.lookup day).getD .any) then (0:ℚ) else w.windowPenalty) ≤ 100000 := by
    split
    · norm_num
    · exact hwp
  linarith

lemma bestStep_skip (bounds : scorePlan.Bounds) (w : scorePlan.ScoreWeights)
    (cs : scorePlan.PlanConstraints) (day : ℕ) (seen : String → ℕ)
    (acc : Option scorePlan.DayPick) (r : scorePlan.PlanRecipe)
    (h : scorePlan.scoreDayCandidate r bounds w cs day < -100000) :
    scorePlan.bestStep bounds w cs day seen acc r = acc := by
  simp only [scorePlan.bestStep]
  rw [if_pos h]

lemma bestStep_none_eq (bounds : scorePlan.Bounds) (w : scorePlan.ScoreWeights)
    (cs : scorePlan.PlanConstraints) (day : ℕ) (seen : String → ℕ)
    (r : scorePlan.PlanRecipe)
    (h : ¬ scorePlan.scoreDayCandidate r bounds w cs day < -100000) :
    scorePlan.bestStep bounds w cs day seen none r =
      some ⟨r, scorePlan.scoreDayCandidate r bounds w cs day -
        (seen (scorePlan.varietyKey r) : ℚ) * w.varietyPenalty⟩ := by
  simp only [scorePlan.bestStep]
  rw [if_neg h]

lemma bestStep_some_eq (bounds : scorePlan.Bounds) (w : scorePlan.ScoreWeights)
    (cs : scorePlan.PlanConstraints) (day : ℕ) (seen : String → ℕ)
    (b : scorePlan.DayPick) (r : scorePlan.PlanRecipe)
    (h : ¬ scorePlan.scoreDayCandidate r bounds w cs day < -100000) :
    scorePlan.bestStep bounds w cs day seen (some b) r =
      if b.score < scorePlan.scoreDayCandidate r bounds w cs day -
          (seen (scorePlan.varietyKey r) : ℚ) * w.varietyPenalty
      then some ⟨r, scorePlan.scoreDayCandidate r bounds w cs day -
        (seen (scorePlan.varietyKey r) : ℚ) * w.varietyPenalty⟩
      else some b := by
  simp only [scorePlan.bestStep]
  rw [if_neg h]

lemma bestStep_safe (bounds : scorePlan.Bounds) (w : scorePlan.ScoreWeights)
    (cs : scorePlan.PlanConstraints) (day : ℕ) (seen : String → ℕ)
    (acc : Option scorePlan.DayPick) (r : scorePlan.PlanRecipe)
    (hacc : ∀ p, acc = some p →
      scorePlan.hasForbiddenTerms (scorePlan.fullTexts p.recipe) cs.forbidTerms = false) :
    ∀ p, scorePlan.bestStep bounds w cs day seen acc r = some p →
      scorePlan.hasForbiddenTerms (scorePlan.fullTexts p.recipe) cs.forbidTerms = false := by
  intro p hp
  by_cases hskip : scorePlan.scoreDayCandidate r bounds w cs day < -100000
  · rw [bestStep_skip bounds w cs day seen acc r hskip] at hp
    exact hacc p hp
  · have hrsafe : scorePlan.hasForbiddenTerms (scorePlan.fullTexts r) cs.forbidTerms = false := by
      cases hbool : scorePlan.hasForbiddenTerms (scorePlan.fullTexts r) cs.forbidTerms with
      | false => rfl
      | true =>
        rw [scoreDayCandidate_blocked r bounds w cs day hbool] at hskip
        exact absurd (by norm_num) hskip
    rcases acc with _ | b
    · rw [bestStep_none_eq bounds w cs day seen r hskip] at hp
      cases hp
      exact hrsafe
    · rw [bestStep_some_eq bounds w cs day seen b r hskip] at hp
      split at hp
      · cases hp; exact hrsafe
      · cases hp; exact hacc _ rfl

lemma bestStep_isSome_mono (bounds : scorePlan.Bounds) (w : scorePlan.ScoreWeights)
    (cs : scorePlan.PlanConstraints) (day : ℕ) (seen : String → ℕ)
    (b : scorePlan.DayPick) (r : scorePlan.PlanRecipe) :
    (scorePlan.bestStep bounds w cs day seen (some b) r).isSome = true := by
  by_cases hskip : scorePlan.scoreDayCandidate r bounds w cs day < -100000
  · rw [bestStep_skip bounds w cs day seen (some b) r hskip]
    rfl
  · rw [bestStep_some_eq bounds w cs day seen b r hskip]
    split <;> rfl

lemma bestStep_isSome_of_safe (bounds : scorePlan.Bounds) (w : scorePlan.ScoreWeights)
    (cs : scorePlan.PlanConstraints) (day : ℕ) (seen : String → ℕ)
    (acc : Option scorePlan.DayPick) (r : scorePlan.PlanRecipe)
    (hwc : 0 ≤ w.weightCost) (hwt : 0 ≤ w.weightTime) (hrb : 0 ≤ w.reuseBonus)
    (hwp : w.windowPenalty ≤ 100000)
    (hsafe : scorePlan.hasForbiddenTerms (scorePlan.fullTexts r) cs.forbidTerms = false) :
    (scorePlan.bestStep bounds w cs day seen acc r).isSome = true := by
  have hge := scoreDayCandidate_safe_ge r bounds w cs day hwc hwt hrb hwp hsafe
  have hskip : ¬ scorePlan.scoreDayCandidate r bounds w cs day < -100000 := by linarith
  rcases acc with _ | b
  · rw [bestStep_none_eq bounds w cs day seen r hskip]
    rfl
  · rw [bestStep_some_eq bounds w cs day seen b r hskip]
    split <;> rfl

lemma foldl_bestStep_isSome_mono (bounds : scorePlan.Bounds) (w : scorePlan.ScoreWeights)
    (cs : scorePlan.PlanConstraints) (day : ℕ) (seen : String → ℕ) :
    ∀ (l : List scorePlan.PlanRecipe) (b : scorePlan.DayPick),
      (l.foldl (scorePlan.bestStep bounds w cs day seen) (some b)).isSome = true := by
  intro l
  induction l with
  | nil => intro b; rfl
  | cons x xs ih =>
    intro b
    rw [List.foldl_cons]
    have hx := bestStep_isSome_mono bounds w cs day seen b x
    rcases Option.isSome_iff_exists.mp hx with ⟨p, hp⟩
    rw [hp]
    exact ih p

lemma foldl_bestStep_isSome (bounds : scorePlan.Bounds) (w : scorePlan.ScoreWeights)
    (cs : scorePlan.PlanConstraints) (day : ℕ) (seen : String → ℕ)
    (hwc : 0 ≤ w.weightCost) (hwt : 0 ≤ w.weightTime) (hrb : 0 ≤ w.reuseBonus)
    (hwp : w.windowPenalty ≤ 100000) :
    ∀ (l : List scorePlan.PlanRecipe) (acc : Option scorePlan.DayPick)
      (r : scorePlan.PlanRecipe), r ∈ l →
      scorePlan.hasForbiddenTerms (scorePlan.fullTexts r) cs.forbidTerms = false →
      (l.foldl (scorePlan.bestStep bounds w cs day seen) acc).isSome = true := by
  intro l
  induction l with
  | nil => intro acc r hr; cases hr
  | cons x xs ih =>
    intro acc r hr hsafe
    rw [List.foldl_cons]
    rcases List.mem_cons.mp hr with rfl | hrx
    · have hx := bestStep_isSome_of_safe bounds w cs day seen acc r hwc hwt hrb hwp hsafe
      rcases Option.isSome_iff_exists.mp hx with ⟨p, hp⟩
      rw [hp]
      exact foldl_bestStep_isSome_mono bounds w cs day seen xs p
    · exact ih _ r hrx hsafe

lemma foldl_bestStep_safe (bounds : scorePlan.Bounds) (w : scorePlan.ScoreWeights)
    (cs : scorePlan.PlanConstraints) (day : ℕ) (seen : String → ℕ) :
    ∀ (l : List scorePlan.PlanRecipe) (acc : Option scorePlan.DayPick),
      (∀ p, acc = some p →
        scorePlan.hasForbiddenTerms (scorePlan.fullTexts p.recipe) cs.forbidTerms = false) →
      ∀ p, l.foldl (scorePlan.bestStep bounds w cs day seen) acc = some p →
        scorePlan.hasForbiddenTerms (scorePlan.fullTexts p.recipe) cs.forbidTerms = false := by
  intro l
  induction l with
  | nil => intro acc hacc p hp; exact hacc p hp
  | cons x xs ih =>
    intro acc hacc p hp
    rw [List.foldl_cons] at hp
    exact ih _ (bestStep_safe bounds w cs day seen acc x hacc) p hp

lemma foldl_dayStep_invariant (pool : List scorePlan.PlanRecipe)
    (bounds : scorePlan.Bounds) (w : scorePlan.ScoreWeights)
    (cs : scorePlan.PlanConstraints) (P : scorePlan.WState → Prop)
    (hstep : ∀ st day, P st → P (scorePlan.dayStep pool bounds w cs st day)) :
    ∀ (l : List ℕ) (st : scorePlan.WState),
      P st → P (l.foldl (scorePlan.dayStep pool bounds w cs) st) := by
  intro l
  induction l with
  | nil => intro st h; exact h
  | cons x xs ih =>
    intro st h
    rw [List.foldl_cons]
    exact ih _ (hstep st x h)

lemma dayStep_safe (pool : List scorePlan.PlanRecipe) (bounds : scorePlan.Bounds)
    (w : scorePlan.ScoreWeights) (cs : scorePlan.PlanConstraints)
    (hwc : 0 ≤ w.weightCost) (hwt : 0 ≤ w.weightTime) (hrb : 0 ≤ w.reuseBonus)
    (hwp : w.windowPenalty ≤ 100000)
    (hex : ∃ r ∈ pool,
      scorePlan.hasForbiddenTerms (scorePlan.fullTexts r) cs.forbidTerms = false)
    (st : scorePlan.WState) (day : ℕ)
    (hchosen : ∀ p ∈ st.chosen,
      scorePlan.hasForbiddenTerms (scorePlan.fullTexts p.recipe) cs.forbidTerms = false) :
    ∀ p ∈ (scorePlan.dayStep pool bounds w cs st day).chosen,
      scorePlan.hasForbiddenTerms (scorePlan.fullTexts p.recipe) cs.forbidTerms = false := by
  rw [scorePlan.dayStep]
  rcases hb : scorePlan.bestCandidate pool bounds w cs day st.seen with _ | b
  · exfalso
    rcases hex with ⟨r, hr, hrsafe⟩
    have hsome := foldl_bestStep_isSome bounds w cs day st.seen hwc hwt hrb hwp
      pool none r hr hrsafe
    rw [scorePlan.bestCandidate] at hb
    rw [hb] at hsome
    cases hsome
  · intro p hp
    simp only [] at hp
    rcases List.mem_append.mp hp with hp1 | hp2
    · exact hchosen p hp1
    · have hpb := List.mem_singleton.mp hp2
      rw [hpb]
      rw [scorePlan.bestCandidate] at hb
      exact foldl_bestStep_safe bounds w cs day st.seen pool none
        (fun q hq => by cases hq) b hb

/-- C1 amended: the scoring path of `pickWeek` never selects a hard-excluded
candidate: whenever at least one pool candidate is free of forbidden tokens
(and the weights are non-negative with `windowPenalty ≤ 1e5`, so that safe
candidates stay above the `-1e5` hard-block sentinel cutoff), every selected
day is free of forbidden tokens. When every candidate is hard-blocked the
fallback fills each day with `pool[0]`, a hard-excluded candidate (see the
counterexample), so the unconditional claim fails. -/
theorem C1_hard_exclusion_amended (pool : List scorePlan.PlanRecipe)
    (w : scorePlan.ScoreWeights) (cs : scorePlan.PlanConstraints)
    (hwc : 0 ≤ w.weightCost) (hwt : 0 ≤ w.weightTime) (hrb : 0 ≤ w.reuseBonus)
    (hwp : w.windowPenalty ≤ 100000)
    (hex : ∃ r ∈ pool,
      scorePlan.hasForbiddenTerms (scorePlan.fullTexts r) cs.forbidTerms = false) :
    ∀ d ∈ (scorePlan.pickWeek pool w cs).days,
      scorePlan.hasForbiddenTerms (scorePlan.fullTexts d.recipe) cs.forbidTerms = false := by
  rcases pool with _ | ⟨p, ps⟩
  · rcases hex with ⟨r, hr, _⟩
    cases hr
  · rw [scorePlan.pickWeek_days_eq]
    exact foldl_dayStep_invariant (p :: ps) _ w cs
      (fun st => ∀ q ∈ st.chosen,
        scorePlan.hasForbiddenTerms (scorePlan.fullTexts q.recipe) cs.forbidTerms = false)
      (fun st day hP => dayStep_safe (p :: ps) _ w cs hwc hwt hrb hwp hex st day hP)
      (List.range 7) ⟨[], fun _ => 0, 0⟩
      (fun q hq => absurd hq (List.not_mem_nil q))

/-- Witness for the amended C1: zero weights and a pool containing one safe
recipe; every selected day is forbidden-token free. -/
theorem C1_hard_exclusion_amended_witness :
    ((0:ℚ) ≤ 0 ∧ (0:ℚ) ≤ 100000 ∧
     (∃ r ∈ [(⟨"r2", "tofu bowl", 10, 5, [], []⟩ : scorePlan.PlanRecipe)],
        scorePlan.hasForbiddenTerms (scorePlan.fullTexts r)
          scorePlan.cex1Constraints.forbidTerms = false)) ∧
    (∀ d ∈ (scorePlan.pickWeek [(⟨"r2", "tofu bowl", 10, 5, [], []⟩ : scorePlan.PlanRecipe)]
        scorePlan.cex1Weights scorePlan.cex1Constraints).days,
      scorePlan.hasForbiddenTerms (scorePlan.fullTexts d.recipe)
        scorePlan.cex1Constraints.forbidTerms = false) :=
  ⟨⟨le_refl 0, by norm_num,
    ⟨⟨"r2", "tofu bowl", 10, 5, [], []⟩, List.mem_singleton.mpr rfl, by decide⟩⟩,
   C1_hard_exclusion_amended [(⟨"r2", "tofu bowl", 10, 5, [], []⟩ : scorePlan.PlanRecipe)]
     scorePlan.cex1Weights scorePlan.cex1Constraints (le_refl 0) (le_refl 0) (le_refl 0)
     (by norm_num [scorePlan.cex1Weights])
     ⟨⟨"r2", "tofu bowl", 10, 5, [], []⟩, List.mem_singleton.mpr rfl, by decide⟩⟩
